import Mathlib

/-!
# Verification of the HydraGame engine

This file gives a shallow embedding of the two hydra engines of the repository:

* `index.js` (namespace `IndexJs`): the canvas version, with the turn-indexed
  growth policy (`step` counter, `reducedGrowth` flag), `deepCopy` and `chop`.
* `script.js` (namespace `ScriptJs`): the SVG version, with the depth-indexed
  growth policy (`depthCounters` map), `cloneSubtree`, `assignDepths` and
  `cutLeaf`.

JavaScript objects live on a heap and are compared by reference.  We model the
heap as a partial map from references (`Nat`) to node records, and every
mutating function as an explicit heap transformer.  Fresh references are
allocated from a counter, mirroring `newId`/`nextId`; the display label
re-assigned by `relabelTree` in `index.js` is presentation-only (the spec calls
it a transient rank, not an identity) and is not part of a node record.
Recursive heap walks take a fuel argument and return `none` when the fuel runs
out, which models non-termination / stack exhaustion on a malformed heap;
on well-formed trees a large enough fuel always succeeds.

Pure trees (`HTree` for shapes, `ITree` for shapes decorated with references)
are used to state what a heap denotes.
-/

/-- A JS hydra node: `parent` back-reference, ordered `children` references and
the `depth` field used by `script.js` (unused by `index.js`, kept 0 there). -/
structure NodeRec where
  parent : Option Nat
  children : List Nat
  depth : Nat
deriving DecidableEq

/-- The object heap: a partial map from references to node records. -/
abbrev Heap : Type := Nat → Option NodeRec

/-- Heap update at one reference (a JS field assignment on that object). -/
def hset (h : Heap) (i : Nat) (r : NodeRec) : Heap :=
  fun j => if j = i then some r else h j

theorem hset_same (h : Heap) (i : Nat) (r : NodeRec) : hset h i r i = some r := by
  simp [hset]

theorem hset_other (h : Heap) (i : Nat) (r : NodeRec) (j : Nat) (hne : j ≠ i) :
    hset h i r j = h j := by
  simp [hset, hne]

/-- `List.foldl` with an option-valued step, mirroring a JS `for` loop whose
body can fail (we use failure only for fuel exhaustion / impossible states). -/
def optFold {α β : Type} (f : β → α → Option β) : Option β → List α → Option β
  | acc, [] => acc
  | acc, c :: l => optFold f (acc.bind fun b => f b c) l

theorem optFold_nil {α β : Type} (f : β → α → Option β) (acc : Option β) :
    optFold f acc [] = acc := rfl

theorem optFold_cons {α β : Type} (f : β → α → Option β) (acc : Option β) (c : α) (l : List α) :
    optFold f acc (c :: l) = optFold f (acc.bind fun b => f b c) l := rfl

theorem optFold_none {α β : Type} (f : β → α → Option β) (l : List α) :
    optFold f none l = none := by
  induction l with
  | nil => rfl
  | cons c l ih => simpa [optFold_cons] using ih

theorem optFold_some_cons {α β : Type} {f : β → α → Option β} {b : β} {c : α} {l : List α}
    {res : β} (h : optFold f (some b) (c :: l) = some res) :
    ∃ b', f b c = some b' ∧ optFold f (some b') l = some res := by
  rw [optFold_cons] at h
  cases hfc : f b c with
  | none => rw [Option.some_bind, hfc, optFold_none] at h; cases h
  | some b' => exact ⟨b', rfl, by rwa [Option.some_bind, hfc] at h⟩

/-- Invariant preservation through an option-valued fold. -/
theorem optFold_inv {α β : Type} {f : β → α → Option β} {P : β → Prop} :
    ∀ {l : List α} {b res : β}, optFold f (some b) l = some res → P b →
      (∀ b' c b'', c ∈ l → P b' → f b' c = some b'' → P b'') → P res := by
  intro l
  induction l with
  | nil =>
    intro b res h hb _
    cases h
    exact hb
  | cons c l ih =>
    intro b res h hb hstep
    obtain ⟨b', hf, hrest⟩ := optFold_some_cons h
    exact ih hrest (hstep b c b' (by simp) hb hf)
      (fun b1 c1 b2 hc1 hp hf1 => hstep b1 c1 b2 (by simp [hc1]) hp hf1)

/-- The parent and children fields of a record (`assignDepths` only rewrites
the depth field, so it preserves this projection everywhere). -/
def pc (r : NodeRec) : Option Nat × List Nat := (r.parent, r.children)

theorem pc_hset (h : Heap) (i : Nat) (r r' : NodeRec) (hr : h i = some r)
    (hpc : pc r' = pc r) : ∀ j, ((hset h i r') j).map pc = (h j).map pc := by
  intro j
  by_cases hj : j = i
  · subst hj
    rw [hset_same, hr]
    simp [hpc]
  · rw [hset_other _ _ _ _ hj]

/-- Excising one occurrence from a duplicate-free list by filtering. -/
theorem filter_bne_of_nodup {L : Nat} {a b : List Nat} (hnd : (a ++ L :: b).Nodup) :
    (a ++ L :: b).filter (fun c => c != L) = a ++ b := by
  rw [List.nodup_append] at hnd
  obtain ⟨hna, hnb, hdisj⟩ := hnd
  rw [List.filter_append]
  have hLb : L ∉ b := (List.nodup_cons.1 hnb).1
  have ha : a.filter (fun c => c != L) = a := by
    rw [List.filter_eq_self]
    intro x hx
    simp only [bne_iff_ne, ne_eq]
    intro hxL
    exact hdisj hx (by simp [hxL])
  have hb : b.filter (fun c => c != L) = b := by
    rw [List.filter_eq_self]
    intro x hx
    simp only [bne_iff_ne, ne_eq]
    intro hxL
    exact hLb (hxL ▸ hx)
  rw [ha, List.filter_cons_of_neg (by simp), hb]

/-- Map an option-valued function over a list, failing if any element fails. -/
def optList {α β : Type} (f : α → Option β) : List α → Option (List β)
  | [] => some []
  | a :: l => (f a).bind fun b => (optList f l).map (fun bs => b :: bs)

theorem optList_some_cons {α β : Type} {f : α → Option β} {a : α} {l : List α}
    {res : List β} (h : optList f (a :: l) = some res) :
    ∃ b bs, f a = some b ∧ optList f l = some bs ∧ res = b :: bs := by
  cases hfa : f a with
  | none => rw [optList, hfa] at h; cases h
  | some b =>
    rw [optList, hfa, Option.some_bind] at h
    cases hfl : optList f l with
    | none => rw [hfl] at h; cases h
    | some bs =>
      rw [hfl] at h
      exact ⟨b, bs, rfl, rfl, by simpa using h.symm⟩

/-- Pure tree shapes: a node is its ordered list of child subtrees. -/
inductive HTree : Type where
  | node : List HTree → HTree

/-- Pure trees decorated with heap references. -/
inductive ITree : Type where
  | node : Nat → List ITree → ITree

def HTree.children : HTree → List HTree
  | .node cs => cs

def ITree.rootId : ITree → Nat
  | .node i _ => i

def ITree.subs : ITree → List ITree
  | .node _ ts => ts

mutual
/-- All references of a decorated tree, in preorder. -/
def ITree.ids : ITree → List Nat
  | .node i ts => i :: idsL ts
def idsL : List ITree → List Nat
  | [] => []
  | t :: ts => t.ids ++ idsL ts
end

mutual
/-- Forget the references of a decorated tree. -/
def ITree.shape : ITree → HTree
  | .node _ ts => .node (shapeL ts)
def shapeL : List ITree → List HTree
  | [] => []
  | t :: ts => t.shape :: shapeL ts
end

mutual
def HTree.beq : HTree → HTree → Bool
  | .node cs, .node ds => beqLH cs ds
def beqLH : List HTree → List HTree → Bool
  | [], [] => true
  | t :: ts, u :: us => HTree.beq t u && beqLH ts us
  | _, _ => false
end

mutual
theorem HTree.beq_iff : ∀ a b : HTree, HTree.beq a b = true ↔ a = b
  | .node cs, .node ds => by
    simp only [HTree.beq, beqLH_iff cs ds, HTree.node.injEq]
theorem beqLH_iff : ∀ as bs : List HTree, beqLH as bs = true ↔ as = bs
  | [], [] => by simp [beqLH]
  | [], _ :: _ => by simp [beqLH]
  | _ :: _, [] => by simp [beqLH]
  | a :: as, b :: bs => by
    simp only [beqLH, Bool.and_eq_true, HTree.beq_iff a b, beqLH_iff as bs, List.cons.injEq]
end

instance : DecidableEq HTree := fun a b => decidable_of_iff _ (HTree.beq_iff a b)

mutual
def ITree.beq : ITree → ITree → Bool
  | .node i ts, .node j us => i == j && beqLI ts us
def beqLI : List ITree → List ITree → Bool
  | [], [] => true
  | t :: ts, u :: us => ITree.beq t u && beqLI ts us
  | _, _ => false
end

mutual
theorem ITree.beq_eq_iff : ∀ a b : ITree, ITree.beq a b = true ↔ a = b
  | .node i ts, .node j us => by
    simp only [ITree.beq, Bool.and_eq_true, beq_iff_eq, beqLI_iff ts us, ITree.node.injEq]
theorem beqLI_iff : ∀ as bs : List ITree, beqLI as bs = true ↔ as = bs
  | [], [] => by simp [beqLI]
  | [], _ :: _ => by simp [beqLI]
  | _ :: _, [] => by simp [beqLI]
  | a :: as, b :: bs => by
    simp only [beqLI, Bool.and_eq_true, ITree.beq_eq_iff a b, beqLI_iff as bs, List.cons.injEq]
end

instance : DecidableEq ITree := fun a b => decidable_of_iff _ (ITree.beq_eq_iff a b)

/-- Read the decorated tree hanging at reference `i` (fails on missing nodes,
cycles or too little fuel).  This is the structural content of the heap. -/
def readITree : Nat → Heap → Nat → Option ITree
  | 0, _, _ => none
  | fuel+1, h, i =>
    (h i).bind fun r => (optList (readITree fuel h) r.children).map (ITree.node i)

/-- Check that every `parent` back-reference below `i` points to the structural
parent, and that `i`'s own parent field is `p`. -/
def parentsOk : Nat → Heap → Option Nat → Nat → Bool
  | 0, _, _, _ => false
  | fuel+1, h, p, i =>
    match h i with
    | none => false
    | some r => (r.parent == p) && r.children.all (parentsOk fuel h (some i))

/-- `getAllNodes` of `index.js`: preorder list of all reachable references. -/
def getAllNodes : Nat → Heap → Nat → Option (List Nat)
  | 0, _, _ => none
  | fuel+1, h, i =>
    (h i).bind fun r => (optList (getAllNodes fuel h) r.children).map (fun ls => i :: ls.flatten)

/-- The heap hangs the decorated tree `t` (with correct parent fields, the root
one being `p`) at reference `t.rootId`. -/
inductive TreeAt (h : Heap) : Option Nat → ITree → Prop
  | mk {p : Option Nat} {i : Nat} {ts : List ITree} {r : NodeRec}
      (hr : h i = some r) (hp : r.parent = p) (hc : r.children = List.map ITree.rootId ts)
      (hts : ∀ t ∈ ts, TreeAt h (some i) t) :
      TreeAt h p (ITree.node i ts)

namespace IndexJs

/-- The whole mutable state of the `index.js` engine (display-only state such
as pan/zoom and labels is out of scope). -/
structure ChopState where
  heap : Heap
  rootId : Nat
  step : Nat
  idCounter : Nat
  reducedGrowth : Bool

/-- `isLeaf` of `index.js`: no children and not the root object. -/
def isLeaf (s : ChopState) (i : Nat) : Bool :=
  match s.heap i with
  | none => false
  | some r => r.children.isEmpty && (i != s.rootId)

/-- `deepCopy(node, newParent)` of `index.js`: allocate a fresh node with
parent `newParent`, then recursively copy the children in order, pushing each
copy onto the fresh node's children.  Returns the new heap, the next fresh
reference and the copy's root reference. -/
def deepCopy : Nat → Heap → Nat → Nat → Nat → Option (Heap × Nat × Nat)
  | 0, _, _, _, _ => none
  | fuel+1, h, ctr, src, newParent =>
    (h src).bind fun r =>
      let nid := ctr
      let h1 := hset h nid ⟨some newParent, [], 0⟩
      (optFold (fun st c =>
          (deepCopy fuel st.1 st.2 c nid).bind fun res =>
            match res.1 nid with
            | some rn => some (hset res.1 nid ⟨rn.parent, rn.children ++ [res.2.2], rn.depth⟩, res.2.1)
            | none => none)
        (some (h1, ctr+1)) r.children).map fun st => (st.1, st.2, nid)

/-- The loop body of `deepCopy` over one child `c`: copy `c`'s subtree with the
fresh node as parent, then push the copy onto the fresh node's children. -/
def dcStep (fuel nid : Nat) : Heap × Nat → Nat → Option (Heap × Nat) :=
  fun st c =>
    (deepCopy fuel st.1 st.2 c nid).bind fun res =>
      match res.1 nid with
      | some rn => some (hset res.1 nid ⟨rn.parent, rn.children ++ [res.2.2], rn.depth⟩, res.2.1)
      | none => none

theorem deepCopy_succ (fuel : Nat) (h : Heap) (ctr src gp : Nat) :
    deepCopy (fuel+1) h ctr src gp =
      (h src).bind fun r =>
        (optFold (dcStep fuel ctr) (some (hset h ctr ⟨some gp, [], 0⟩, ctr+1)) r.children).map
          fun st => (st.1, st.2, ctr) := rfl

/-- The regrowth loop of `chop`: `N` times, deep-copy `P` (with new parent `G`)
and push the copy onto `G.children`. -/
def growLoop (fuel P G : Nat) : Nat → Heap → Nat → Option (Heap × Nat)
  | 0, h, ctr => some (h, ctr)
  | n+1, h, ctr =>
    (deepCopy fuel h ctr P G).bind fun res =>
      match res.1 G with
      | some gr => growLoop fuel P G n (hset res.1 G ⟨gr.parent, gr.children ++ [res.2.2], gr.depth⟩) res.2.1
      | none => none

/-- `chop(leaf)` of `index.js`.  `step` is incremented first; then `leaf` is
filtered out of its parent's children; if the parent is not the root, `N`
copies of the parent's (post-excision) subtree are attached to the grandparent,
`N` being `step` (or 1 in reduced-growth mode).  A `.error` result models a
thrown `TypeError` (e.g. the root's `parent` is `null`) or resource
exhaustion; the payload is the state at the throw point. -/
def chop (s : ChopState) (leaf : Nat) (fuel : Nat) : Except ChopState ChopState :=
  let stp := s.step + 1
  match s.heap leaf with
  | none => .error { s with step := stp }
  | some lr =>
    match lr.parent with
    | none => .error { s with step := stp }
    | some P =>
      match s.heap P with
      | none => .error { s with step := stp }
      | some pr =>
        let h1 := hset s.heap P ⟨pr.parent, pr.children.filter (fun c => c != leaf), pr.depth⟩
        if P = s.rootId then .ok { s with heap := h1, step := stp }
        else
          match pr.parent with
          | none => .error { s with heap := h1, step := stp }
          | some G =>
            let N := if s.reducedGrowth then 1 else stp
            match growLoop fuel P G N h1 s.idCounter with
            | none => .error { s with heap := h1, step := stp }
            | some st => .ok { s with heap := st.1, step := stp, idCounter := st.2 }

/-- `initHydra(length)` of `index.js`: a chain hydra root → 1 → ⋯ → length
(reference `k` is the node the page labels `k`), `step` reset to 0.
`reducedGrowth` is module state, taken as a parameter. -/
def initHydra (len : Nat) (rg : Bool) : ChopState :=
  let L := max len 1
  { heap := fun j =>
      if j = 0 then some ⟨none, [1], 0⟩
      else if j < L then some ⟨some (j-1), [j+1], 0⟩
      else if j = L then some ⟨some (L-1), [], 0⟩
      else none,
    rootId := 0, step := 0, idCounter := L + 1, reducedGrowth := rg }

mutual
/-- `computeWidths` of `index.js`: a leaf reserves `hSpacing = 40`; an internal
node reserves the sum of its children's widths, at least 40. -/
def widthOf : HTree → ℚ
  | .node cs => match cs with | [] => 40 | _ => max 40 (widthSum cs)
def widthSum : List HTree → ℚ
  | [] => 0
  | t :: ts => widthOf t + widthSum ts
end

/-- `placeNodes` of `index.js`: the node sits at `(x, y)`; children are laid
left to right from `x - (sum of child widths)/2`, each centred in its own
width slot, one level (`vSpacing = 80`) higher.  Returns the positions of the
subtree's nodes in preorder. -/
def placeNodes : Nat → HTree → ℚ → ℚ → Option (List (ℚ × ℚ))
  | 0, _, _, _ => none
  | fuel+1, .node cs, x, y =>
    (optFold (fun st c =>
        (placeNodes fuel c (st.2 + widthOf c / 2) (y - 80)).map fun l => (st.1 ++ l, st.2 + widthOf c))
      (some ([(x, y)], x - widthSum cs / 2)) cs).map fun st => st.1

end IndexJs

namespace ScriptJs

/-- The mutable state of the `script.js` engine. -/
structure CutState where
  heap : Heap
  rootId : Nat
  moveCount : Nat
  depthCounters : Nat → Option Nat
  nextId : Nat

/-- `isLeaf` of `script.js`: `n.children.length === 0` (note: no root check). -/
def isLeaf (h : Heap) (i : Nat) : Bool :=
  match h i with
  | none => false
  | some r => r.children.isEmpty

/-- `isRoot` of `script.js`: `n.parent === null`. -/
def isRoot (h : Heap) (i : Nat) : Bool :=
  match h i with
  | none => false
  | some r => r.parent == none

/-- `cloneSubtree` of `script.js`: fresh node with `parent: null`, then each
child is cloned recursively, its parent field set to the fresh node, and pushed
onto the fresh node's children. -/
def cloneSubtree : Nat → Heap → Nat → Nat → Option (Heap × Nat × Nat)
  | 0, _, _, _ => none
  | fuel+1, h, ctr, src =>
    (h src).bind fun r =>
      let nid := ctr
      let h1 := hset h nid ⟨none, [], 0⟩
      (optFold (fun st c =>
          (cloneSubtree fuel st.1 st.2 c).bind fun res =>
            match res.1 res.2.2 with
            | none => none
            | some rc =>
              let h2 := hset res.1 res.2.2 ⟨some nid, rc.children, rc.depth⟩
              match h2 nid with
              | none => none
              | some rn => some (hset h2 nid ⟨rn.parent, rn.children ++ [res.2.2], rn.depth⟩, res.2.1))
        (some (h1, ctr+1)) r.children).map fun st => (st.1, st.2, nid)

/-- The loop body of `cloneSubtree` over one child `c`: clone `c`'s subtree,
point the clone's parent at the fresh node, push it onto the fresh node's
children. -/
def csStep (fuel nid : Nat) : Heap × Nat → Nat → Option (Heap × Nat) :=
  fun st c =>
    (cloneSubtree fuel st.1 st.2 c).bind fun res =>
      match res.1 res.2.2 with
      | none => none
      | some rc =>
        let h2 := hset res.1 res.2.2 ⟨some nid, rc.children, rc.depth⟩
        match h2 nid with
        | none => none
        | some rn => some (hset h2 nid ⟨rn.parent, rn.children ++ [res.2.2], rn.depth⟩, res.2.1)

theorem cloneSubtree_succ (fuel : Nat) (h : Heap) (ctr src : Nat) :
    cloneSubtree (fuel+1) h ctr src =
      (h src).bind fun r =>
        (optFold (csStep fuel ctr) (some (hset h ctr ⟨none, [], 0⟩, ctr+1)) r.children).map
          fun st => (st.1, st.2, ctr) := rfl

/-- `assignDepths` of `script.js`: set `depth = d` at `i` and recurse with
`d + 1` on the children. -/
def assignDepths : Nat → Heap → Nat → Nat → Option Heap
  | 0, _, _, _ => none
  | fuel+1, h, i, d =>
    (h i).bind fun r =>
      let h1 := hset h i ⟨r.parent, r.children, d⟩
      optFold (fun hh c => assignDepths fuel hh c (d+1)) (some h1) r.children

/-- One level of `assignDepths` as a fold step (children get depth `d + 1`). -/
def adStep (fuel d : Nat) : Heap → Nat → Option Heap :=
  fun hh c => assignDepths fuel hh c (d+1)

theorem assignDepths_succ (fuel : Nat) (h : Heap) (i d : Nat) :
    assignDepths (fuel+1) h i d =
      (h i).bind fun r =>
        optFold (adStep fuel d) (some (hset h i ⟨r.parent, r.children, d⟩)) r.children := rfl

/-- The regrowth loop of `cutLeaf`: `k` times, clone `P`'s subtree, set the
clone's parent to `G` and push it onto `G.children`. -/
def cloneLoop (fuel P G : Nat) : Nat → Heap → Nat → Option (Heap × Nat)
  | 0, h, ctr => some (h, ctr)
  | k+1, h, ctr =>
    (cloneSubtree fuel h ctr P).bind fun res =>
      match res.1 res.2.2 with
      | none => none
      | some rc =>
        let h2 := hset res.1 res.2.2 ⟨some G, rc.children, rc.depth⟩
        match h2 G with
        | none => none
        | some gr => cloneLoop fuel P G k (hset h2 G ⟨gr.parent, gr.children ++ [res.2.2], gr.depth⟩) res.2.1

/-- `cutLeaf(leaf)` of `script.js`.  Guarded: a non-leaf target or a target
without a parent is a no-op returning the state unchanged.  Otherwise the leaf
is excised; if the parent is the root only the move counter advances; else
`k = depthCounters[depth(P)] + 1` clones of `P`'s remaining subtree are
attached to the grandparent and `k` is stored back.  `afterMutation` re-runs
`assignDepths` from the root. -/
def cutLeaf (s : CutState) (leaf : Nat) (fuel : Nat) : Option CutState :=
  match s.heap leaf with
  | none => none
  | some lr =>
    if lr.children.isEmpty = false then some s
    else match lr.parent with
    | none => some s
    | some P =>
      match s.heap P with
      | none => none
      | some pr =>
        let h1 := hset s.heap P ⟨pr.parent, pr.children.filter (fun c => c != leaf), pr.depth⟩
        match pr.parent with
        | none =>
          (assignDepths fuel h1 s.rootId 0).map fun h2 =>
            { s with heap := h2, moveCount := s.moveCount + 1 }
        | some G =>
          let d := pr.depth
          let k := (s.depthCounters d).getD 0 + 1
          (cloneLoop fuel P G k h1 s.nextId).bind fun st =>
            (assignDepths fuel st.1 s.rootId 0).map fun h2 =>
              { s with heap := h2, nextId := st.2,
                       depthCounters := fun d' => if d' = d then some k else s.depthCounters d',
                       moveCount := s.moveCount + 1 }

mutual
/-- The `size` pass of `computeLayout` in `script.js`: leaf count. -/
def size : HTree → ℚ
  | .node cs => match cs with | [] => 1 | _ => sizeL cs
def sizeL : List HTree → ℚ
  | [] => 0
  | t :: ts => size t + sizeL ts
end

/-- The `place` pass of `computeLayout` in `script.js`: the node sits at the
centre of its slot `[xLeft, xRight]` at `y = 40 + depth * 90`; each child gets
a slot of width `(size child / size node) * (W - 120)` starting where the
previous one ended, from `xLeft`.  Returns positions in preorder. -/
def place (W : ℚ) : Nat → HTree → ℚ → ℚ → Nat → Option (List (ℚ × ℚ))
  | 0, _, _, _, _ => none
  | fuel+1, .node cs, xLeft, xRight, depth =>
    let x := (xLeft + xRight) / 2
    let y : ℚ := 40 + (depth : ℚ) * 90
    match cs with
    | [] => some [(x, y)]
    | _ =>
      let total : ℚ := sizeL cs
      (optFold (fun st c =>
          (place W fuel c st.2 (st.2 + (size c / total) * (W - 120)) (depth+1)).map
            fun l => (st.1 ++ l, st.2 + (size c / total) * (W - 120)))
        (some ([(x, y)], xLeft)) cs).map fun st => st.1

/-- `computeLayout` of `script.js` at the default width `W = 1000`
(`svg.clientWidth || 1000`): the root is placed in the slot `[60, W - 60]`. -/
def computeLayout (fuel : Nat) (t : HTree) : Option (List (ℚ × ℚ)) :=
  place 1000 fuel t 60 (1000 - 60) 0

end ScriptJs

/-- First sibling of the C4 failing input: an inner node with a leaf and a
two-leaf node below it (leaf count 3, containing nodes three levels deep). -/
def c4A : HTree := .node [.node [], .node [.node [], .node []]]

/-- Second sibling of the C4 failing input: a single leaf. -/
def c4B : HTree := .node []

/-- The C4 failing input: a root with the two siblings `c4A` and `c4B`. -/
def c4tree : HTree := .node [c4A, c4B]

/-- The result of the C7 scenario: cut leaf `n3` of the chain hydra of length
3 produced by `initHydra(3)`, turn-indexed non-reduced policy, first turn. -/
def c7res : IndexJs.ChopState :=
  match IndexJs.chop (IndexJs.initHydra 3 false) 3 10 with
  | .ok x => x
  | .error x => x

/-- The result of `chop` applied to the non-leaf internal node `n1` of the
chain hydra of length 3 (an InvalidTarget input reaching the engine). -/
def c5res : IndexJs.ChopState :=
  match IndexJs.chop (IndexJs.initHydra 3 false) 1 10 with
  | .ok x => x
  | .error x => x

/-- The state at the `TypeError` thrown by `chop` applied to the root of the
chain hydra of length 3 (the root's `parent` is `null`). -/
def c5err : IndexJs.ChopState :=
  match IndexJs.chop (IndexJs.initHydra 3 false) 0 10 with
  | .ok x => x
  | .error x => x

/-- A heap consisting of a single childless root object. -/
def c8heap : Heap := fun j => if j = 0 then some ⟨none, [], 0⟩ else none

/-- The result of the C2 scenario: the first cut of the length-3 chain hydra
at the deepest leaf, non-reduced turn-indexed policy. -/
def c2res : IndexJs.ChopState :=
  match IndexJs.chop (IndexJs.initHydra 3 false) 3 10 with
  | .ok x => x
  | .error x => x

/-- The result of the C10 scenario (same cut as C2): first cut of the
length-3 chain hydra at the deepest leaf. -/
def c10res : IndexJs.ChopState :=
  match IndexJs.chop (IndexJs.initHydra 3 false) 3 10 with
  | .ok x => x
  | .error x => x

/-- The result of cutting the only leaf of the length-1 chain hydra (its
parent is the root, so no regrowth). -/
def c6res : IndexJs.ChopState :=
  match IndexJs.chop (IndexJs.initHydra 1 false) 1 5 with
  | .ok x => x
  | .error x => x

/-- A two-node `script.js` hydra: root 0 with a single leaf child 1. -/
def c6heap : Heap :=
  fun j => if j = 0 then some ⟨none, [1], 0⟩
    else if j = 1 then some ⟨some 0, [], 1⟩ else none

def c6state : ScriptJs.CutState := ⟨c6heap, 0, 0, fun _ => none, 2⟩

/-- The result of `cutLeaf` on the leaf of the two-node `script.js` hydra. -/
def c6cres : ScriptJs.CutState :=
  match ScriptJs.cutLeaf c6state 1 5 with
  | some x => x
  | none => c6state

/-- A four-node `script.js` hydra: root 0, inner node 1 at depth 1, leaves 2
and 3 at depth 2. -/
def c3heap : Heap :=
  fun j => if j = 0 then some ⟨none, [1], 0⟩
    else if j = 1 then some ⟨some 0, [2, 3], 1⟩
    else if j = 2 then some ⟨some 1, [], 2⟩
    else if j = 3 then some ⟨some 1, [], 2⟩ else none

def c3state : ScriptJs.CutState := ⟨c3heap, 0, 0, fun _ => none, 4⟩

/-- The result of `cutLeaf` on leaf 2 of the four-node `script.js` hydra:
the first regrowth-triggering cut, at depth 1. -/
def c3res : ScriptJs.CutState :=
  match ScriptJs.cutLeaf c3state 2 10 with
  | some x => x
  | none => c3state

/-- Claim C4 (refuting evidence): on the concrete 6-node tree `c4tree`, the
`script.js` layout places the single node of sibling `c4B` at `x = 830`,
strictly between two nodes of sibling `c4A` (at `x = 1720/3 ≈ 573` and
`x = 3040/3 ≈ 1013`), so the horizontal spans of the two sibling subtrees
overlap.  The first three conjuncts identify which positions belong to which
sibling: the full layout is the root position followed by `c4A`'s block and
then `c4B`'s block, exactly as `place` recurses.  The cause: `place` sizes a
child slot as a fraction of the full width `W - 120` instead of the parent's
own slot, contradicting the comment in `script.js` that the `x` positions are
computed from subtree sizes to prevent overlap. -/
theorem c4_layout_sibling_overlap :
    ∃ lA lB : List (ℚ × ℚ),
      ScriptJs.place 1000 9 c4A 60 720 1 = some lA ∧
      ScriptJs.place 1000 9 c4B 720 940 1 = some lB ∧
      ScriptJs.computeLayout 10 c4tree = some ((500, 40) :: (lA ++ lB)) ∧
      ∃ pa ∈ lA, ∃ pb ∈ lB, ∃ pa' ∈ lA, pa.1 < pb.1 ∧ pb.1 < pa'.1 := by
  refine ⟨[(390, 130), (620/3, 220), (1940/3, 220), (1720/3, 310), (3040/3, 310)],
          [(830, 130)],
          by norm_num [ScriptJs.place, ScriptJs.size, ScriptJs.sizeL, optFold, c4A],
          by norm_num [ScriptJs.place, ScriptJs.size, ScriptJs.sizeL, optFold, c4B],
          by norm_num [ScriptJs.computeLayout, ScriptJs.place, ScriptJs.size, ScriptJs.sizeL,
                       optFold, c4A, c4B, c4tree], ?_⟩
  refine ⟨(1720/3, 310), by norm_num, (830, 130), by norm_num, (3040/3, 310), by norm_num,
          ?_, ?_⟩ <;> norm_num

/-- Claim C5 (counterexample): `index.js`'s cut operation does not guard
InvalidTarget inside the engine.  Cutting the non-leaf node `n1` of the chain
hydra of length 3 succeeds and mutates the tree (the root loses its whole
subtree) and advances the move counter; cutting the root itself surfaces as a
thrown `TypeError` (modelled by `.error`), with the move counter already
advanced at the throw point. -/
theorem c5_chop_unguarded :
    (IndexJs.chop (IndexJs.initHydra 3 false) 1 10 = .ok c5res ∧
      (c5res.heap 0).map NodeRec.children = some [] ∧ c5res.step = 1) ∧
    (IndexJs.chop (IndexJs.initHydra 3 false) 0 10 = .error c5err ∧ c5err.step = 1) :=
  ⟨⟨rfl, by decide, by decide⟩, ⟨rfl, by decide⟩⟩

/-- Claim C5 (amended): `script.js`'s `cutLeaf` guards InvalidTarget inside
the engine: applied to any stored node that is not a leaf, or whose parent
reference is `null` (the root), it returns the state unchanged — no tree
mutation, no move-counter or depth-counter change, and no fatal error.  (The
`index.js` engine performs no such guard — see the counterexample — so the
original claim, quantified over the cut operation of both engines, fails.) -/
theorem c5_cutLeaf_guard (s : ScriptJs.CutState) (L fuel : Nat) (lr : NodeRec)
    (hlr : s.heap L = some lr) (hbad : lr.children ≠ [] ∨ lr.parent = none) :
    ScriptJs.cutLeaf s L fuel = some s := by
  rcases hch : lr.children with _ | ⟨c, cs⟩
  · simp only [ScriptJs.cutLeaf, hlr]
    have hE : lr.children.isEmpty = true := by rw [hch]; rfl
    rw [hE, if_neg (by simp)]
    rcases hbad with hbad | hbad
    · exact absurd hch hbad
    · rw [hbad]
  · simp only [ScriptJs.cutLeaf, hlr]
    have hE : lr.children.isEmpty = false := by rw [hch]; rfl
    rw [hE, if_pos rfl]

/-- Claim C5 witness: the guard theorem applied to a concrete state — cutting
the root (whose parent is `null`) of a two-node hydra is a no-op. -/
theorem c5_cutLeaf_guard_witness :
    ScriptJs.cutLeaf ⟨c8heap, 0, 0, fun _ => none, 1⟩ 0 3 =
      some ⟨c8heap, 0, 0, fun _ => none, 1⟩ :=
  c5_cutLeaf_guard _ 0 3 ⟨none, [], 0⟩ (by decide) (Or.inr rfl)

/-- Claim C7 (counterexample): cutting `n3` of the length-3 chain hydra at
turn 1 does NOT leave the tree `root → n1 → n2` with node count 3: `n3`'s
parent `n2` is not the root, so regrowth applies (growth factor 1) and one
copy of `n2`'s remaining subtree is attached to the grandparent `n1`; the
result has 4 nodes and the shape `root → n1 → (n2, copy)`. -/
theorem c7_chain3_regrowth_occurs :
    IndexJs.chop (IndexJs.initHydra 3 false) 3 10 = .ok c7res ∧
    (readITree 10 c7res.heap c7res.rootId).map ITree.shape =
      some (.node [.node [.node [], .node []]]) ∧
    (readITree 10 c7res.heap c7res.rootId).map ITree.shape ≠
      some (.node [.node [.node []]]) ∧
    (getAllNodes 10 c7res.heap c7res.rootId).map List.length = some 4 ∧
    (getAllNodes 10 c7res.heap c7res.rootId).map List.length ≠ some 3 :=
  ⟨rfl, by decide, by decide, by decide, by decide⟩

/-- Claim C7 (amended): starting from the chain hydra of length 3
(`root → n1 → n2 → n3`) produced by the chain generator, cutting `n3` under
the turn-indexed non-reduced policy at turn 1 triggers regrowth at the
grandparent `n1` with growth factor 1 (since `n3`'s parent `n2` is not the
root): the resulting tree is `root → n1 → (n2, n2')` with `n2'` a fresh copy
of the excised `n2` subtree, move count 1, node count 4, and all parent
back-references correctly wired. -/
theorem c7_chain3_first_cut :
    IndexJs.chop (IndexJs.initHydra 3 false) 3 10 = .ok c7res ∧
    c7res.step = 1 ∧
    (readITree 10 c7res.heap c7res.rootId).map ITree.shape =
      some (.node [.node [.node [], .node []]]) ∧
    readITree 10 c7res.heap c7res.rootId = some (.node 0 [.node 1 [.node 2 [], .node 4 []]]) ∧
    (getAllNodes 10 c7res.heap c7res.rootId).map List.length = some 4 ∧
    parentsOk 10 c7res.heap none c7res.rootId = true :=
  ⟨rfl, by decide, by decide, by decide, by decide, by decide⟩

/-- Claim C8 (counterexample): for a childless root, `script.js`'s `isLeaf`
returns `true` while `isRoot` also returns `true` — `isLeaf(root)` is not
false when the root has zero children, and the two predicates are not
mutually exclusive for the root in that engine. -/
theorem c8_childless_root_isLeaf :
    c8heap 0 = some ⟨none, [], 0⟩ ∧
    ScriptJs.isRoot c8heap 0 = true ∧ ScriptJs.isLeaf c8heap 0 = true :=
  ⟨rfl, by decide, by decide⟩

/-- Claim C8 (amended): `isRoot(n)` is true iff `n` has no parent (both
engines agree).  `index.js`'s `isLeaf` is true iff the children sequence is
empty and `n` is not the root — in particular `isLeaf(root)` is always false
there, even with zero children.  `script.js`'s `isLeaf`, however, is true iff
the children sequence is empty regardless of rootness, so for a childless
root its `isLeaf` and `isRoot` are both true. -/
theorem c8_leaf_root_predicates :
    (∀ (s : IndexJs.ChopState) (i : Nat) (r : NodeRec), s.heap i = some r →
      (IndexJs.isLeaf s i = true ↔ (r.children = [] ∧ i ≠ s.rootId))) ∧
    (∀ (s : IndexJs.ChopState), IndexJs.isLeaf s s.rootId = false) ∧
    (∀ (h : Heap) (i : Nat) (r : NodeRec), h i = some r →
      (ScriptJs.isLeaf h i = true ↔ r.children = [])) ∧
    (∀ (h : Heap) (i : Nat) (r : NodeRec), h i = some r →
      (ScriptJs.isRoot h i = true ↔ r.parent = none)) := by
  refine ⟨fun s i r hr => ?_, fun s => ?_, fun h i r hr => ?_, fun h i r hr => ?_⟩
  · simp [IndexJs.isLeaf, hr, List.isEmpty_iff]
  · unfold IndexJs.isLeaf
    cases s.heap s.rootId with
    | none => rfl
    | some r => simp
  · simp [ScriptJs.isLeaf, hr, List.isEmpty_iff]
  · simp [ScriptJs.isRoot, hr]

/-- `deepCopy` only allocates fresh references: the copy root is `ctr`, the
counter strictly increases, and references below `ctr` are untouched. -/
theorem deepCopy_writes_ge :
    ∀ (fuel : Nat) (h : Heap) (ctr src gp : Nat) (res : Heap × Nat × Nat),
      IndexJs.deepCopy fuel h ctr src gp = some res →
      res.2.2 = ctr ∧ ctr + 1 ≤ res.2.1 ∧ (∀ j, j < ctr → res.1 j = h j) := by
  intro fuel
  induction fuel with
  | zero => intro h ctr src gp res hres; cases hres
  | succ fuel ih =>
    intro h ctr src gp res hres
    rw [IndexJs.deepCopy_succ] at hres
    cases hsrc : h src with
    | none => rw [hsrc] at hres; cases hres
    | some r =>
      rw [hsrc, Option.some_bind] at hres
      cases hfold : optFold (IndexJs.dcStep fuel ctr)
          (some (hset h ctr ⟨some gp, [], 0⟩, ctr+1)) r.children with
      | none => rw [hfold] at hres; cases hres
      | some st =>
        rw [hfold] at hres
        simp only [Option.map_some'] at hres
        have hinv : (∀ j, j < ctr → st.1 j = h j) ∧ ctr + 1 ≤ st.2 := by
          refine @optFold_inv _ _ _
            (fun b => (∀ j, j < ctr → b.1 j = h j) ∧ ctr + 1 ≤ b.2)
            _ _ _ hfold ⟨?_, Nat.le_refl _⟩ ?_
          · intro j hj
            exact hset_other _ _ _ _ (Nat.ne_of_lt hj)
          · rintro b' c b'' _ ⟨hb1, hb2⟩ hstep
            simp only [IndexJs.dcStep] at hstep
            cases hdc : IndexJs.deepCopy fuel b'.1 b'.2 c ctr with
            | none => rw [hdc] at hstep; cases hstep
            | some res2 =>
              rw [hdc, Option.some_bind] at hstep
              obtain ⟨hnid, hctr2, hfr⟩ := ih b'.1 b'.2 c ctr res2 hdc
              cases hrn : res2.1 ctr with
              | none => rw [hrn] at hstep; cases hstep
              | some rn =>
                rw [hrn] at hstep
                cases hstep
                dsimp only
                constructor
                · intro j hj
                  rw [hset_other _ _ _ _ (Nat.ne_of_lt hj),
                      hfr j (Nat.lt_of_lt_of_le (Nat.lt_succ_of_lt hj) hb2)]
                  exact hb1 j hj
                · exact Nat.le_trans hb2 (Nat.le_trans (Nat.le_succ _) hctr2)
        cases hres
        exact ⟨rfl, hinv.2, hinv.1⟩

/-- `cloneSubtree` only allocates fresh references; moreover the copy root's
record is present in the resulting heap. -/
theorem cloneSubtree_writes_ge :
    ∀ (fuel : Nat) (h : Heap) (ctr src : Nat) (res : Heap × Nat × Nat),
      ScriptJs.cloneSubtree fuel h ctr src = some res →
      res.2.2 = ctr ∧ ctr + 1 ≤ res.2.1 ∧ (∀ j, j < ctr → res.1 j = h j) ∧
        ∃ rn, res.1 ctr = some rn := by
  intro fuel
  induction fuel with
  | zero => intro h ctr src res hres; cases hres
  | succ fuel ih =>
    intro h ctr src res hres
    rw [ScriptJs.cloneSubtree_succ] at hres
    cases hsrc : h src with
    | none => rw [hsrc] at hres; cases hres
    | some r =>
      rw [hsrc, Option.some_bind] at hres
      cases hfold : optFold (ScriptJs.csStep fuel ctr)
          (some (hset h ctr ⟨none, [], 0⟩, ctr+1)) r.children with
      | none => rw [hfold] at hres; cases hres
      | some st =>
        rw [hfold] at hres
        simp only [Option.map_some'] at hres
        have hinv : (∀ j, j < ctr → st.1 j = h j) ∧ ctr + 1 ≤ st.2 ∧
            ∃ rn, st.1 ctr = some rn := by
          refine @optFold_inv _ _ _
            (fun b => (∀ j, j < ctr → b.1 j = h j) ∧ ctr + 1 ≤ b.2 ∧ ∃ rn, b.1 ctr = some rn)
            _ _ _ hfold ⟨?_, Nat.le_refl _, ⟨_, hset_same _ _ _⟩⟩ ?_
          · intro j hj
            exact hset_other _ _ _ _ (Nat.ne_of_lt hj)
          · rintro b' c b'' _ ⟨hb1, hb2, rn0, hb3⟩ hstep
            simp only [ScriptJs.csStep] at hstep
            cases hdc : ScriptJs.cloneSubtree fuel b'.1 b'.2 c with
            | none => rw [hdc] at hstep; cases hstep
            | some res2 =>
              rw [hdc, Option.some_bind] at hstep
              obtain ⟨hnid, hctr2, hfr, _⟩ := ih b'.1 b'.2 c res2 hdc
              have hctrb : ctr < b'.2 := hb2
              cases hrc : res2.1 res2.2.2 with
              | none => rw [hrc] at hstep; cases hstep
              | some rc =>
                rw [hrc] at hstep
                dsimp only at hstep
                have hne : ctr ≠ res2.2.2 := by
                  rw [hnid]; exact Nat.ne_of_lt hctrb
                have hh2 : (hset res2.1 res2.2.2 ⟨some ctr, rc.children, rc.depth⟩) ctr = some rn0 := by
                  rw [hset_other _ _ _ _ hne, hfr ctr hctrb]
                  exact hb3
                rw [hh2] at hstep
                cases hstep
                dsimp only
                refine ⟨?_, Nat.le_trans hb2 (Nat.le_trans (Nat.le_succ _) hctr2), ?_⟩
                · intro j hj
                  rw [hset_other _ _ _ _ (Nat.ne_of_lt hj),
                      hset_other _ _ _ _ (by rw [hnid]; exact Nat.ne_of_lt (Nat.lt_trans hj hctrb)),
                      hfr j (Nat.lt_trans hj hctrb)]
                  exact hb1 j hj
                · exact ⟨_, hset_same _ _ _⟩
        cases hres
        exact ⟨rfl, hinv.2.1, hinv.1, hinv.2.2⟩

/-- Through `growLoop`, `G` gains exactly `n` fresh children references at the
end of its list, and every other pre-existing reference is untouched. -/
theorem growLoop_count :
    ∀ (n fuel P G : Nat) (h : Heap) (ctr : Nat) (gr : NodeRec) (out : Heap × Nat),
      IndexJs.growLoop fuel P G n h ctr = some out →
      h G = some gr → G < ctr →
      ∃ cids : List Nat,
        cids.length = n ∧ (∀ c ∈ cids, ctr ≤ c) ∧
        out.1 G = some ⟨gr.parent, gr.children ++ cids, gr.depth⟩ ∧
        ctr ≤ out.2 ∧
        (∀ j, j < ctr → j ≠ G → out.1 j = h j) := by
  intro n
  induction n with
  | zero =>
    intro fuel P G h ctr gr out hout hG hGc
    cases hout
    exact ⟨[], rfl, by simp, by simpa using hG, le_refl _, fun j _ _ => rfl⟩
  | succ n ih =>
    intro fuel P G h ctr gr out hout hG hGc
    simp only [IndexJs.growLoop] at hout
    cases hdc : IndexJs.deepCopy fuel h ctr P G with
    | none => rw [hdc] at hout; cases hout
    | some res =>
      rw [hdc, Option.some_bind] at hout
      obtain ⟨hnid, hctr2, hfr⟩ := deepCopy_writes_ge fuel h ctr P G res hdc
      have hresG : res.1 G = some gr := by rw [hfr G hGc]; exact hG
      rw [hresG] at hout
      have hGc2 : G < res.2.1 := Nat.lt_of_lt_of_le (Nat.lt_succ_of_lt hGc) hctr2
      obtain ⟨cids, hlen, hge, hQ, hctr3, hfr2⟩ :=
        ih fuel P G (hset res.1 G ⟨gr.parent, gr.children ++ [res.2.2], gr.depth⟩) res.2.1
          ⟨gr.parent, gr.children ++ [res.2.2], gr.depth⟩ out hout (hset_same _ _ _) hGc2
      refine ⟨res.2.2 :: cids, by simpa using hlen, ?_, ?_, ?_, ?_⟩
      · intro c hc
        rcases List.mem_cons.1 hc with rfl | hc
        · rw [hnid]
        · exact Nat.le_trans (Nat.le_succ _) (Nat.le_trans hctr2 (hge c hc))
      · rw [hQ]
        simp
      · exact Nat.le_trans (Nat.le_trans (Nat.le_succ _) hctr2) hctr3
      · intro j hj hjG
        rw [hfr2 j (Nat.lt_of_lt_of_le (Nat.lt_succ_of_lt hj) hctr2) hjG,
            hset_other _ _ _ _ hjG, hfr j hj]

/-- Through `cloneLoop`, `G` gains exactly `k` fresh children references at
the end of its list, and every other pre-existing reference is untouched. -/
theorem cloneLoop_count :
    ∀ (k fuel P G : Nat) (h : Heap) (ctr : Nat) (gr : NodeRec) (out : Heap × Nat),
      ScriptJs.cloneLoop fuel P G k h ctr = some out →
      h G = some gr → G < ctr →
      ∃ cids : List Nat,
        cids.length = k ∧ (∀ c ∈ cids, ctr ≤ c) ∧
        out.1 G = some ⟨gr.parent, gr.children ++ cids, gr.depth⟩ ∧
        ctr ≤ out.2 ∧
        (∀ j, j < ctr → j ≠ G → out.1 j = h j) := by
  intro k
  induction k with
  | zero =>
    intro fuel P G h ctr gr out hout hG hGc
    cases hout
    exact ⟨[], rfl, by simp, by simpa using hG, le_refl _, fun j _ _ => rfl⟩
  | succ k ih =>
    intro fuel P G h ctr gr out hout hG hGc
    simp only [ScriptJs.cloneLoop] at hout
    cases hdc : ScriptJs.cloneSubtree fuel h ctr P with
    | none => rw [hdc] at hout; cases hout
    | some res =>
      rw [hdc, Option.some_bind] at hout
      obtain ⟨hnid, hctr2, hfr, rn, hrn⟩ := cloneSubtree_writes_ge fuel h ctr P res hdc
      cases hrc : res.1 res.2.2 with
      | none => rw [hnid, hrn] at hrc; cases hrc
      | some rc =>
        rw [hrc] at hout
        dsimp only at hout
        have hGne : G ≠ res.2.2 := by rw [hnid]; exact Nat.ne_of_lt hGc
        have hG2 : (hset res.1 res.2.2 ⟨some G, rc.children, rc.depth⟩) G = some gr := by
          rw [hset_other _ _ _ _ hGne, hfr G hGc]
          exact hG
        rw [hG2] at hout
        dsimp only at hout
        have hGc2 : G < res.2.1 := Nat.lt_of_lt_of_le (Nat.lt_succ_of_lt hGc) hctr2
        obtain ⟨cids, hlen, hge, hQ, hctr3, hfr2⟩ :=
          ih fuel P G
            (hset (hset res.1 res.2.2 ⟨some G, rc.children, rc.depth⟩) G
              ⟨gr.parent, gr.children ++ [res.2.2], gr.depth⟩) res.2.1
            ⟨gr.parent, gr.children ++ [res.2.2], gr.depth⟩ out hout (hset_same _ _ _) hGc2
        refine ⟨res.2.2 :: cids, by simpa using hlen, ?_, ?_, ?_, ?_⟩
        · intro c hc
          rcases List.mem_cons.1 hc with rfl | hc
          · rw [hnid]
          · exact Nat.le_trans (Nat.le_succ _) (Nat.le_trans hctr2 (hge c hc))
        · rw [hQ]
          simp
        · exact Nat.le_trans (Nat.le_trans (Nat.le_succ _) hctr2) hctr3
        · intro j hj hjG
          have hjne : j ≠ res.2.2 := by
            rw [hnid]; exact Nat.ne_of_lt hj
          rw [hfr2 j (Nat.lt_of_lt_of_le (Nat.lt_succ_of_lt hj) hctr2) hjG,
              hset_other _ _ _ _ hjG, hset_other _ _ _ _ hjne, hfr j hj]

/-- `assignDepths` rewrites only depth fields: parent and children projections
are preserved at every reference. -/
theorem assignDepths_pc :
    ∀ (fuel : Nat) (h : Heap) (i d : Nat) (h' : Heap),
      ScriptJs.assignDepths fuel h i d = some h' →
      ∀ j, (h' j).map pc = (h j).map pc := by
  intro fuel
  induction fuel with
  | zero => intro h i d h' hres; cases hres
  | succ fuel ih =>
    intro h i d h' hres
    rw [ScriptJs.assignDepths_succ] at hres
    cases hi : h i with
    | none => rw [hi] at hres; cases hres
    | some r =>
      rw [hi, Option.some_bind] at hres
      refine @optFold_inv _ _ _ (fun hh => ∀ j, (hh j).map pc = (h j).map pc) _ _ _ hres
        (pc_hset h i r ⟨r.parent, r.children, d⟩ hi rfl) ?_
      rintro b' c b'' _ hp hstep
      intro j
      rw [← hp j]
      exact ih b' c (d+1) b'' hstep j

/-- Claim C2 (confirmed): the turn counter `step` of `index.js` starts at 0
(`initHydra` resets it), is incremented by exactly 1 on every successful cut
(including cuts whose parent is the root, which trigger no regrowth), and when
regrowth applies, the number of copies attached to the grandparent equals the
post-increment turn number `s.step + 1` in normal mode and 1 in reduced-growth
mode. -/
theorem c2_turn_policy :
    (∀ (len : Nat) (rg : Bool), (IndexJs.initHydra len rg).step = 0) ∧
    (∀ (s : IndexJs.ChopState) (L fuel : Nat) (s' : IndexJs.ChopState),
      IndexJs.chop s L fuel = .ok s' → s'.step = s.step + 1) ∧
    (∀ (s : IndexJs.ChopState) (L fuel : Nat) (s' : IndexJs.ChopState)
      (lr pr gr : NodeRec) (P G : Nat),
      s.heap L = some lr → lr.parent = some P → s.heap P = some pr →
      P ≠ s.rootId → pr.parent = some G → s.heap G = some gr →
      G ≠ P → G < s.idCounter →
      IndexJs.chop s L fuel = .ok s' →
      ∃ cids : List Nat,
        s'.heap G = some ⟨gr.parent, gr.children ++ cids, gr.depth⟩ ∧
        cids.length = (if s.reducedGrowth then 1 else s.step + 1)) := by
  refine ⟨fun len rg => rfl, ?_, ?_⟩
  · intro s L fuel s' hok
    unfold IndexJs.chop at hok
    cases hlr : s.heap L with
    | none => simp only [hlr] at hok; cases hok
    | some lr =>
      simp only [hlr] at hok
      cases hLp : lr.parent with
      | none => simp only [hLp] at hok; cases hok
      | some P =>
        simp only [hLp] at hok
        cases hpr : s.heap P with
        | none => simp only [hpr] at hok; cases hok
        | some pr =>
          simp only [hpr] at hok
          by_cases hP : P = s.rootId
          · rw [if_pos hP] at hok
            cases hok
            rfl
          · rw [if_neg hP] at hok
            cases hGp : pr.parent with
            | none => simp only [hGp] at hok; cases hok
            | some G =>
              simp only [hGp] at hok
              cases hgl : IndexJs.growLoop fuel P G (if s.reducedGrowth then 1 else s.step + 1)
                  (hset s.heap P ⟨some G, pr.children.filter (fun c => c != L), pr.depth⟩)
                  s.idCounter with
              | none => rw [hgl] at hok; cases hok
              | some st =>
                rw [hgl] at hok
                cases hok
                rfl
  · intro s L fuel s' lr pr gr P G hlr hLp hpr hPnr hGp hgr hGP hGb hok
    simp only [IndexJs.chop, hlr, hLp, hpr] at hok
    rw [if_neg hPnr] at hok
    simp only [hGp] at hok
    cases hgl : IndexJs.growLoop fuel P G (if s.reducedGrowth then 1 else s.step + 1)
        (hset s.heap P ⟨some G, pr.children.filter (fun c => c != L), pr.depth⟩)
        s.idCounter with
    | none => rw [hgl] at hok; cases hok
    | some st =>
      rw [hgl] at hok
      cases hok
      have h1G : (hset s.heap P ⟨some G, pr.children.filter (fun c => c != L), pr.depth⟩) G
          = some gr := by
        rw [hset_other _ _ _ _ hGP]
        exact hgr
      obtain ⟨cids, hlen, _, hQ, _, _⟩ :=
        growLoop_count (if s.reducedGrowth then 1 else s.step + 1) fuel P G _ s.idCounter gr st
          hgl h1G hGb
      exact ⟨cids, hQ, hlen⟩

/-- Claim C2 witness: the policy facts applied to the length-3 chain hydra,
first cut at the deepest leaf (one copy attached at turn 1). -/
theorem c2_turn_policy_witness :
    (IndexJs.initHydra 3 false).step = 0 ∧
    IndexJs.chop (IndexJs.initHydra 3 false) 3 10 = .ok c2res ∧
    c2res.step = (IndexJs.initHydra 3 false).step + 1 ∧
    ∃ cids : List Nat,
      c2res.heap 1 = some ⟨some 0, [2] ++ cids, 0⟩ ∧ cids.length = 1 := by
  refine ⟨c2_turn_policy.1 3 false, rfl, c2_turn_policy.2.1 _ 3 10 c2res rfl, ?_⟩
  exact c2_turn_policy.2.2 (IndexJs.initHydra 3 false) 3 10 c2res
    ⟨some 2, [], 0⟩ ⟨some 1, [3], 0⟩ ⟨some 0, [2], 0⟩ 2 1
    rfl rfl rfl (by decide) rfl rfl (by decide) (by decide) rfl

/-- Claim C6 (confirmed): cutting a leaf whose parent is the root removes
exactly that leaf from the root's children, increments the move counter by
exactly 1, allocates no new node (the id counter is unchanged and every other
reference keeps its record), consults no growth policy state, and leaves all
other tree structure unchanged — in `index.js` (`chop`, where the record
equality is exact) and in `script.js` (`cutLeaf`, where `assignDepths` may
rewrite depth fields, so parent/children projections are compared). -/
theorem c6_root_cut :
    (∀ (s : IndexJs.ChopState) (L fuel : Nat) (lr rr : NodeRec) (a b : List Nat)
      (s' : IndexJs.ChopState),
      s.heap L = some lr → lr.children = [] → lr.parent = some s.rootId →
      s.heap s.rootId = some rr → rr.children = a ++ L :: b → (a ++ L :: b).Nodup →
      IndexJs.chop s L fuel = .ok s' →
      s'.heap s.rootId = some ⟨rr.parent, a ++ b, rr.depth⟩ ∧
      (∀ j, j ≠ s.rootId → s'.heap j = s.heap j) ∧
      s'.step = s.step + 1 ∧ s'.idCounter = s.idCounter ∧
      s'.rootId = s.rootId ∧ s'.reducedGrowth = s.reducedGrowth) ∧
    (∀ (s : ScriptJs.CutState) (L fuel : Nat) (lr rr : NodeRec) (R : Nat)
      (a b : List Nat) (s' : ScriptJs.CutState),
      s.heap L = some lr → lr.children = [] → lr.parent = some R →
      s.heap R = some rr → rr.parent = none → rr.children = a ++ L :: b →
      (a ++ L :: b).Nodup →
      ScriptJs.cutLeaf s L fuel = some s' →
      (s'.heap R).map pc = some (none, a ++ b) ∧
      (∀ j, j ≠ R → (s'.heap j).map pc = (s.heap j).map pc) ∧
      s'.moveCount = s.moveCount + 1 ∧ s'.nextId = s.nextId ∧
      s'.depthCounters = s.depthCounters ∧ s'.rootId = s.rootId) := by
  constructor
  · intro s L fuel lr rr a b s' hlr hleaf hLp hrr hsplit hnd hok
    simp only [IndexJs.chop, hlr, hLp, hrr, if_true] at hok
    cases hok
    refine ⟨?_, ?_, rfl, rfl, rfl, rfl⟩
    · show hset s.heap s.rootId _ s.rootId = _
      rw [hset_same, hsplit, filter_bne_of_nodup hnd]
    · intro j hj
      exact hset_other _ _ _ _ hj
  · intro s L fuel lr rr R a b s' hlr hleaf hLp hrr hRp hsplit hnd hok
    simp only [ScriptJs.cutLeaf, hlr] at hok
    have hE : lr.children.isEmpty = true := by rw [hleaf]; rfl
    rw [hE, if_neg (by simp)] at hok
    simp only [hLp, hrr, hRp] at hok
    cases had : ScriptJs.assignDepths fuel
        (hset s.heap R ⟨none, rr.children.filter (fun c => c != L), rr.depth⟩)
        s.rootId 0 with
    | none => rw [had] at hok; cases hok
    | some h2 =>
      rw [had] at hok
      simp only [Option.map_some'] at hok
      cases hok
      have hpc := assignDepths_pc fuel _ s.rootId 0 h2 had
      refine ⟨?_, ?_, rfl, rfl, rfl, rfl⟩
      · show (h2 R).map pc = _
        rw [hpc R, hset_same]
        simp only [Option.map_some', pc]
        rw [hsplit, filter_bne_of_nodup hnd]
      · intro j hj
        show (h2 j).map pc = _
        rw [hpc j, hset_other _ _ _ _ hj]

/-- Claim C6 witness: the root-cut facts applied to the length-1 chain hydra
of `index.js` and to a two-node `script.js` hydra. -/
theorem c6_root_cut_witness :
    (IndexJs.chop (IndexJs.initHydra 1 false) 1 5 = .ok c6res ∧
      c6res.heap 0 = some ⟨none, [], 0⟩ ∧ c6res.step = 1 ∧ c6res.idCounter = 2) ∧
    (ScriptJs.cutLeaf c6state 1 5 = some c6cres ∧
      (c6cres.heap 0).map pc = some (none, []) ∧ c6cres.moveCount = 1 ∧
      c6cres.nextId = 2 ∧ c6cres.depthCounters = c6state.depthCounters) := by
  have h1 := c6_root_cut.1 (IndexJs.initHydra 1 false) 1 5 ⟨some 0, [], 0⟩ ⟨none, [1], 0⟩
    [] [] c6res rfl rfl rfl rfl rfl (by decide) rfl
  have h2 := c6_root_cut.2 c6state 1 5 ⟨some 0, [], 1⟩ ⟨none, [1], 0⟩ 0
    [] [] c6cres rfl rfl rfl rfl rfl rfl (by decide) rfl
  exact ⟨⟨rfl, h1.1, h1.2.2.1, h1.2.2.2.1⟩,
         ⟨rfl, h2.1, h2.2.2.1, h2.2.2.2.1, h2.2.2.2.2.1⟩⟩

/-- Claim C3 (confirmed): under the depth-indexed policy of `script.js`, a
regrowth-triggering cut whose parent `P` carries depth `d` attaches exactly
`N = stored(d) + 1` clones to the grandparent (`stored(d)` read with default
0, so 1 at a fresh depth and 2 when the stored counter is 1), stores `N` back
as the new counter for depth `d`, and leaves every other depth's counter
unchanged. -/
theorem c3_depth_policy (s : ScriptJs.CutState) (L fuel : Nat) (lr pr gr : NodeRec)
    (P G : Nat) (s' : ScriptJs.CutState)
    (hlr : s.heap L = some lr) (hleaf : lr.children = []) (hLp : lr.parent = some P)
    (hpr : s.heap P = some pr) (hGp : pr.parent = some G) (hgr : s.heap G = some gr)
    (hGP : G ≠ P) (hGb : G < s.nextId)
    (hok : ScriptJs.cutLeaf s L fuel = some s') :
    s'.moveCount = s.moveCount + 1 ∧
    s'.depthCounters pr.depth = some ((s.depthCounters pr.depth).getD 0 + 1) ∧
    (∀ d', d' ≠ pr.depth → s'.depthCounters d' = s.depthCounters d') ∧
    ∃ cids : List Nat,
      (s'.heap G).map pc = some (gr.parent, gr.children ++ cids) ∧
      cids.length = (s.depthCounters pr.depth).getD 0 + 1 ∧
      (∀ c ∈ cids, s.nextId ≤ c) ∧
      (s.depthCounters pr.depth = none → cids.length = 1) ∧
      (s.depthCounters pr.depth = some 1 → cids.length = 2) := by
  simp only [ScriptJs.cutLeaf, hlr] at hok
  have hE : lr.children.isEmpty = true := by rw [hleaf]; rfl
  rw [hE, if_neg (by simp)] at hok
  simp only [hLp, hpr, hGp] at hok
  cases hcl : ScriptJs.cloneLoop fuel P G ((s.depthCounters pr.depth).getD 0 + 1)
      (hset s.heap P ⟨some G, pr.children.filter (fun c => c != L), pr.depth⟩)
      s.nextId with
  | none => rw [hcl] at hok; cases hok
  | some st =>
    rw [hcl, Option.some_bind] at hok
    cases had : ScriptJs.assignDepths fuel st.1 s.rootId 0 with
    | none => rw [had] at hok; cases hok
    | some h2 =>
      rw [had] at hok
      simp only [Option.map_some'] at hok
      cases hok
      have hpcp := assignDepths_pc fuel _ s.rootId 0 h2 had
      have h1G : (hset s.heap P ⟨some G, pr.children.filter (fun c => c != L), pr.depth⟩) G
          = some gr := by
        rw [hset_other _ _ _ _ hGP]
        exact hgr
      obtain ⟨cids, hlen, hge, hQ, _, _⟩ :=
        cloneLoop_count ((s.depthCounters pr.depth).getD 0 + 1) fuel P G _ s.nextId gr st
          hcl h1G hGb
      refine ⟨rfl, by simp, fun d' hd' => by simp [hd'], cids, ?_, hlen, hge, ?_, ?_⟩
      · show (h2 G).map pc = _
        rw [hpcp G, hQ]
        simp [pc]
      · intro h0
        rw [h0] at hlen
        exact hlen
      · intro h1
        rw [h1] at hlen
        exact hlen

/-- Claim C3 witness: the depth-policy facts applied to a four-node hydra,
cutting leaf 2 (parent at depth 1, fresh counters): one clone attached and
the depth-1 counter set to 1. -/
theorem c3_depth_policy_witness :
    ScriptJs.cutLeaf c3state 2 10 = some c3res ∧
    c3res.moveCount = 1 ∧
    c3res.depthCounters 1 = some 1 ∧
    (∀ d', d' ≠ 1 → c3res.depthCounters d' = c3state.depthCounters d') ∧
    ∃ cids : List Nat,
      (c3res.heap 0).map pc = some (none, [1] ++ cids) ∧
      cids.length = 1 ∧ (∀ c ∈ cids, 4 ≤ c) ∧
      (c3state.depthCounters 1 = none → cids.length = 1) ∧
      (c3state.depthCounters 1 = some 1 → cids.length = 2) := by
  have h := c3_depth_policy c3state 2 10 ⟨some 1, [], 2⟩ ⟨some 0, [2, 3], 1⟩ ⟨none, [1], 0⟩
    1 0 c3res rfl rfl rfl rfl rfl rfl (by decide) (by decide) rfl
  exact ⟨rfl, h.1, h.2.1, h.2.2.1, h.2.2.2⟩

/-- Claim C10 (confirmed): for a successful regrowing cut (parent `P` not the
root), the only pre-existing references whose records change are `P` — which
loses exactly the one occurrence of `L`, keeping the rest of its children in
order — and the grandparent `G` — which gains exactly `N` freshly allocated
references appended at the end of its children, so its previous children
(including `P`, at its original position) keep their relative order.  Every
other pre-existing reference keeps its whole record (children and parent
pointer alike). -/
theorem c10_frame (s : IndexJs.ChopState) (L fuel : Nat) (s' : IndexJs.ChopState)
    (lr pr gr : NodeRec) (P G : Nat) (a b : List Nat)
    (hlr : s.heap L = some lr) (hleaf : lr.children = []) (hLp : lr.parent = some P)
    (hpr : s.heap P = some pr) (hPnr : P ≠ s.rootId) (hGp : pr.parent = some G)
    (hgr : s.heap G = some gr) (hGP : G ≠ P) (hGb : G < s.idCounter)
    (hPb : P < s.idCounter)
    (hsplit : pr.children = a ++ L :: b) (hnd : (a ++ L :: b).Nodup)
    (hok : IndexJs.chop s L fuel = .ok s') :
    s'.heap P = some ⟨some G, a ++ b, pr.depth⟩ ∧
    (∃ cids : List Nat,
      s'.heap G = some ⟨gr.parent, gr.children ++ cids, gr.depth⟩ ∧
      cids.length = (if s.reducedGrowth then 1 else s.step + 1) ∧
      ∀ c ∈ cids, s.idCounter ≤ c) ∧
    (∀ j, j < s.idCounter → j ≠ P → j ≠ G → s'.heap j = s.heap j) := by
  simp only [IndexJs.chop, hlr, hLp, hpr] at hok
  rw [if_neg hPnr] at hok
  simp only [hGp] at hok
  cases hgl : IndexJs.growLoop fuel P G (if s.reducedGrowth then 1 else s.step + 1)
      (hset s.heap P ⟨some G, pr.children.filter (fun c => c != L), pr.depth⟩)
      s.idCounter with
  | none => rw [hgl] at hok; cases hok
  | some st =>
    rw [hgl] at hok
    cases hok
    have h1G : (hset s.heap P ⟨some G, pr.children.filter (fun c => c != L), pr.depth⟩) G
        = some gr := by
      rw [hset_other _ _ _ _ hGP]
      exact hgr
    obtain ⟨cids, hlen, hge, hQ, _, hfr⟩ :=
      growLoop_count (if s.reducedGrowth then 1 else s.step + 1) fuel P G _ s.idCounter gr st
        hgl h1G hGb
    refine ⟨?_, ⟨cids, hQ, hlen, hge⟩, ?_⟩
    · show st.1 P = _
      rw [hfr P hPb (Ne.symm hGP), hset_same, hsplit, filter_bne_of_nodup hnd]
    · intro j hj hjP hjG
      show st.1 j = s.heap j
      rw [hfr j hj hjG, hset_other _ _ _ _ hjP]

/-- Claim C10 witness: the frame facts applied to the length-3 chain hydra,
first cut at the deepest leaf: node 2 loses leaf 3, node 1 gains one fresh
child, root 0 is untouched. -/
theorem c10_frame_witness :
    IndexJs.chop (IndexJs.initHydra 3 false) 3 10 = .ok c10res ∧
    c10res.heap 2 = some ⟨some 1, [], 0⟩ ∧
    (∃ cids : List Nat,
      c10res.heap 1 = some ⟨some 0, [2] ++ cids, 0⟩ ∧
      cids.length = 1 ∧ ∀ c ∈ cids, 4 ≤ c) ∧
    (∀ j, j < 4 → j ≠ 2 → j ≠ 1 → c10res.heap j = (IndexJs.initHydra 3 false).heap j) := by
  have h := c10_frame (IndexJs.initHydra 3 false) 3 10 c10res
    ⟨some 2, [], 0⟩ ⟨some 1, [3], 0⟩ ⟨some 0, [2], 0⟩ 2 1 [] []
    rfl rfl rfl rfl (by decide) rfl rfl (by decide) (by decide) (by decide) rfl (by decide) rfl
  exact ⟨rfl, h.1, h.2.1, h.2.2⟩

/-- Claim C8 witness: the predicate characterisations applied to the
two-node chain hydra (root 0, leaf 1) and to the single-root heap. -/
theorem c8_leaf_root_predicates_witness :
    (IndexJs.isLeaf (IndexJs.initHydra 1 false) 1 = true ↔
      (([] : List Nat) = [] ∧ 1 ≠ (IndexJs.initHydra 1 false).rootId)) ∧
    IndexJs.isLeaf (IndexJs.initHydra 1 false) (IndexJs.initHydra 1 false).rootId = false ∧
    (ScriptJs.isLeaf c8heap 0 = true ↔ ([] : List Nat) = []) ∧
    (ScriptJs.isRoot c8heap 0 = true ↔ (none : Option Nat) = none) :=
  ⟨c8_leaf_root_predicates.1 _ 1 ⟨some 0, [], 0⟩ (by decide),
   c8_leaf_root_predicates.2.1 _,
   c8_leaf_root_predicates.2.2.1 c8heap 0 ⟨none, [], 0⟩ rfl,
   c8_leaf_root_predicates.2.2.2 c8heap 0 ⟨none, [], 0⟩ rfl⟩

theorem ids_node (i : Nat) (ts : List ITree) : (ITree.node i ts).ids = i :: idsL ts := rfl

theorem idsL_append : ∀ (ts us : List ITree), idsL (ts ++ us) = idsL ts ++ idsL us := by
  intro ts us
  induction ts with
  | nil => rfl
  | cons t ts ih => simp [idsL, ih]

theorem mem_idsL {j : Nat} : ∀ {ts : List ITree}, j ∈ idsL ts ↔ ∃ t ∈ ts, j ∈ t.ids := by
  intro ts
  induction ts with
  | nil => simp [idsL]
  | cons t ts ih => simp [idsL, ih]

theorem ITree.rootId_mem (t : ITree) : t.rootId ∈ t.ids := by
  cases t with
  | node i ts => simp [ITree.rootId, ids_node]

theorem ids_ne_nil (t : ITree) : t.ids ≠ [] := by
  cases t with
  | node i ts => simp [ids_node]

theorem shapeL_append : ∀ (ts us : List ITree), shapeL (ts ++ us) = shapeL ts ++ shapeL us := by
  intro ts us
  induction ts with
  | nil => rfl
  | cons t ts ih => simp [shapeL, ih]

theorem shapeL_length : ∀ (ts : List ITree), (shapeL ts).length = ts.length := by
  intro ts
  induction ts with
  | nil => rfl
  | cons t ts ih => simp [shapeL, ih]

theorem idsL_map_rootId_sub : ∀ (ts : List ITree) (j : Nat), j ∈ ts.map ITree.rootId → j ∈ idsL ts := by
  intro ts j hj
  rcases List.mem_map.1 hj with ⟨t, ht, rfl⟩
  exact mem_idsL.2 ⟨t, ht, t.rootId_mem⟩

/-- If the references of a list of trees are duplicate-free, so are the roots. -/
theorem nodup_map_rootId : ∀ (ts : List ITree), (idsL ts).Nodup → (ts.map ITree.rootId).Nodup := by
  intro ts
  induction ts with
  | nil => intro _; simp
  | cons t ts ih =>
    intro hnd
    simp only [idsL] at hnd
    rw [List.nodup_append] at hnd
    obtain ⟨h1, h2, h3⟩ := hnd
    simp only [List.map_cons, List.nodup_cons]
    refine ⟨?_, ih h2⟩
    intro hmem
    exact h3 t.rootId_mem (idsL_map_rootId_sub ts _ hmem)

theorem TreeAt.inv {h : Heap} {p : Option Nat} {i : Nat} {ts : List ITree}
    (ht : TreeAt h p (ITree.node i ts)) :
    ∃ r, h i = some r ∧ r.parent = p ∧ r.children = ts.map ITree.rootId ∧
      ∀ t ∈ ts, TreeAt h (some i) t := by
  cases ht with
  | mk hr hp hc hts => exact ⟨_, hr, hp, hc, hts⟩

/-- `TreeAt` only depends on the parent/children projections of the records at
the tree's own references. -/
theorem TreeAt.mono_pc {h h' : Heap} {p : Option Nat} {t : ITree} (ht : TreeAt h p t)
    (hag : ∀ j ∈ t.ids, (h' j).map pc = (h j).map pc) : TreeAt h' p t := by
  induction ht with
  | @mk p i ts r hr hp hc hts ih =>
    have hi : (h' i).map pc = some (pc r) := by
      rw [hag i (by simp [ids_node]), hr]
      rfl
    cases hri : h' i with
    | none => rw [hri] at hi; cases hi
    | some r' =>
      rw [hri] at hi
      simp only [Option.map_some', Option.some.injEq] at hi
      refine TreeAt.mk hri ?_ ?_ ?_
      · have := congrArg Prod.fst hi
        simpa [pc, hp] using this
      · have := congrArg Prod.snd hi
        simpa [pc, hc] using this
      · intro t htm
        refine ih t htm ?_
        intro j hj
        exact hag j (by rw [ids_node]; exact List.mem_cons_of_mem _ (mem_idsL.2 ⟨t, htm, hj⟩))

theorem TreeAt.mono {h h' : Heap} {p : Option Nat} {t : ITree} (ht : TreeAt h p t)
    (hag : ∀ j ∈ t.ids, h' j = h j) : TreeAt h' p t :=
  ht.mono_pc (fun j hj => by rw [hag j hj])

/-- Executable well-formedness of an `index.js` state: the heap hangs the
decorated tree `T` at the root, all parent back-references are correctly
wired, references are duplicate-free and all of them are below the allocation
counter.  At concrete states this is checked by evaluation. -/
def chopWF (fuel : Nat) (s : IndexJs.ChopState) (T : ITree) : Prop :=
  readITree fuel s.heap s.rootId = some T ∧
  parentsOk fuel s.heap none s.rootId = true ∧
  T.ids.Nodup ∧ ∀ j ∈ T.ids, j < s.idCounter

theorem readITree_TreeAt :
    ∀ (fuel : Nat) (h : Heap) (p : Option Nat) (i : Nat) (t : ITree),
      readITree fuel h i = some t → parentsOk fuel h p i = true →
      TreeAt h p t ∧ t.rootId = i := by
  intro fuel
  induction fuel with
  | zero => intro h p i t hr _; cases hr
  | succ fuel ih =>
    intro h p i t hr hpo
    rw [readITree] at hr
    rw [parentsOk] at hpo
    cases hi : h i with
    | none => rw [hi] at hr; cases hr
    | some r =>
      rw [hi, Option.some_bind] at hr
      rw [hi] at hpo
      simp only [Bool.and_eq_true, beq_iff_eq, List.all_eq_true] at hpo
      obtain ⟨hrp, hall⟩ := hpo
      cases hol : optList (readITree fuel h) r.children with
      | none => rw [hol] at hr; cases hr
      | some ts =>
        rw [hol] at hr
        simp only [Option.map_some', Option.some.injEq] at hr
        subst hr
        have hlist : ∀ (cs : List Nat) (us : List ITree),
            optList (readITree fuel h) cs = some us →
            (∀ c ∈ cs, parentsOk fuel h (some i) c = true) →
            cs = us.map ITree.rootId ∧ ∀ u ∈ us, TreeAt h (some i) u := by
          intro cs
          induction cs with
          | nil =>
            intro us hus _
            cases hus
            exact ⟨rfl, by simp⟩
          | cons c cs ihc =>
            intro us hus hall'
            obtain ⟨u, us', hu, hus', rfl⟩ := optList_some_cons hus
            obtain ⟨htu, hru⟩ := ih h (some i) c u hu (hall' c (by simp))
            obtain ⟨hceq, hts⟩ := ihc us' hus' (fun c' hc' => hall' c' (by simp [hc']))
            refine ⟨by simp [hru, hceq], ?_⟩
            intro u' hu'
            rcases List.mem_cons.1 hu' with rfl | hu'
            · exact htu
            · exact hts u' hu'
        obtain ⟨hceq, hts⟩ := hlist r.children ts hol hall
        exact ⟨TreeAt.mk hi hrp hceq hts, rfl⟩

theorem chopWF_spec {fuel : Nat} {s : IndexJs.ChopState} {T : ITree} (h : chopWF fuel s T) :
    TreeAt s.heap none T ∧ T.rootId = s.rootId ∧ T.ids.Nodup ∧
      ∀ j ∈ T.ids, j < s.idCounter := by
  obtain ⟨h1, h2, h3, h4⟩ := h
  obtain ⟨ht, hr⟩ := readITree_TreeAt fuel s.heap none s.rootId T h1 h2
  exact ⟨ht, hr, h3, h4⟩

/-- Full functional specification of `deepCopy`: on a well-formed source
subtree `t` whose references all lie below the allocation counter, it
succeeds with a copy `t'` that has the same shape (hence the same child
order), whose references are exactly the `t.ids.length` freshly allocated
ones `ctr, ctr+1, …` in preorder, whose parent fields all point inside the
copy except the root's, which points at `gp` — and it touches no reference
outside the fresh block. -/
theorem deepCopy_spec :
    ∀ (fuel : Nat) (h : Heap) (ctr gp : Nat) (q : Option Nat) (t : ITree)
      (res : Heap × Nat × Nat),
      TreeAt h q t → (∀ j ∈ t.ids, j < ctr) →
      IndexJs.deepCopy fuel h ctr t.rootId gp = some res →
      ∃ t' : ITree,
        res.2.2 = ctr ∧ res.2.1 = ctr + t.ids.length ∧
        (∀ j, j < ctr → res.1 j = h j) ∧
        (∀ j, ctr + t.ids.length ≤ j → res.1 j = h j) ∧
        TreeAt res.1 (some gp) t' ∧ t'.rootId = ctr ∧ t'.shape = t.shape ∧
        t'.ids = List.range' ctr t.ids.length := by
  intro fuel
  induction fuel with
  | zero => intro h ctr gp q t res _ _ hres; cases hres
  | succ fuel ih =>
    intro h ctr gp q t res ht hb hres
    cases t with
    | node i ts =>
    obtain ⟨r, hi, hrp, hrc, hts⟩ := ht.inv
    simp only [ITree.rootId] at hres
    rw [IndexJs.deepCopy_succ, hi, Option.some_bind] at hres
    have hbts : ∀ u ∈ ts, ∀ j ∈ u.ids, j < ctr := by
      intro u hu j hj
      exact hb j (by rw [ids_node]; exact List.mem_cons_of_mem _ (mem_idsL.2 ⟨u, hu, hj⟩))
    have fold_spec : ∀ (ts2 : List ITree) (hh : Heap) (m : Nat) (rts : List Nat)
        (st : Heap × Nat),
        optFold (IndexJs.dcStep fuel ctr) (some (hh, ctr + 1 + m)) (ts2.map ITree.rootId)
          = some st →
        hh ctr = some ⟨some gp, rts, 0⟩ →
        (∀ u ∈ ts2, TreeAt hh (some i) u) →
        (∀ u ∈ ts2, ∀ j ∈ u.ids, j < ctr) →
        ∃ ts2' : List ITree,
          st.2 = ctr + 1 + m + (idsL ts2).length ∧
          (∀ j, j < ctr + 1 + m → j ≠ ctr → st.1 j = hh j) ∧
          (∀ j, st.2 ≤ j → st.1 j = hh j) ∧
          st.1 ctr = some ⟨some gp, rts ++ ts2'.map ITree.rootId, 0⟩ ∧
          shapeL ts2' = shapeL ts2 ∧
          idsL ts2' = List.range' (ctr + 1 + m) (idsL ts2).length ∧
          (∀ u' ∈ ts2', TreeAt st.1 (some ctr) u') := by
      intro ts2
      induction ts2 with
      | nil =>
        intro hh m rts st hfold hctr _ _
        cases hfold
        exact ⟨[], by simp [idsL], fun j _ _ => rfl, fun j _ => rfl, by simpa using hctr,
          rfl, by simp [idsL], by simp⟩
      | cons u us ihl =>
        intro hh m rts st hfold hctr htsrc hbsrc
        rw [List.map_cons] at hfold
        obtain ⟨b', hstep, hrest⟩ := optFold_some_cons hfold
        simp only [IndexJs.dcStep] at hstep
        cases hdc : IndexJs.deepCopy fuel hh (ctr + 1 + m) u.rootId ctr with
        | none => rw [hdc] at hstep; cases hstep
        | some res2 =>
          rw [hdc, Option.some_bind] at hstep
          obtain ⟨u', hnid, hc2, hlow2, hhigh2, htu', hru', hshu', hidu'⟩ :=
            ih hh (ctr + 1 + m) ctr (some i) u res2 (htsrc u (by simp))
              (fun j hj => Nat.lt_of_lt_of_le (hbsrc u (by simp) j hj) (by omega)) hdc
          have hctr2 : res2.1 ctr = some ⟨some gp, rts, 0⟩ := by
            rw [hlow2 ctr (by omega)]
            exact hctr
          rw [hctr2] at hstep
          cases hstep
          have harith : res2.2.1 = ctr + 1 + (m + u.ids.length) := by omega
          rw [harith] at hrest
          have hctr3 : (hset res2.1 ctr ⟨some gp, rts ++ [res2.2.2], 0⟩) ctr
              = some ⟨some gp, rts ++ [ctr + 1 + m], 0⟩ := by
            rw [hset_same, hnid]
          obtain ⟨ts2'', hst2, hlow3, hhigh3, hctr4, hsh3, hid3, hmem3⟩ :=
            ihl (hset res2.1 ctr ⟨some gp, rts ++ [res2.2.2], 0⟩) (m + u.ids.length)
              (rts ++ [ctr + 1 + m]) st hrest hctr3
              (fun v hv => (htsrc v (by simp [hv])).mono
                (fun j hj => by
                  rw [hset_other _ _ _ _ (Nat.ne_of_lt (hbsrc v (by simp [hv]) j hj)),
                      hlow2 j (Nat.lt_of_lt_of_le (hbsrc v (by simp [hv]) j hj) (by omega))]))
              (fun v hv => hbsrc v (by simp [hv]))
          have hu'pres : TreeAt st.1 (some ctr) u' := by
            refine htu'.mono ?_
            intro j hj
            rw [hidu'] at hj
            rw [List.mem_range'_1] at hj
            rw [hlow3 j (by omega) (by omega),
                hset_other _ _ _ _ (by omega : j ≠ ctr)]
          refine ⟨u' :: ts2'', ?_, ?_, ?_, ?_, ?_, ?_, ?_⟩
          · simp only [idsL, List.length_append] at hst2 ⊢
            omega
          · intro j hj hjc
            rw [hlow3 j (by omega) hjc, hset_other _ _ _ _ hjc, hlow2 j (by omega)]
          · intro j hj
            have hj2 : ctr + 1 + (m + u.ids.length) + (idsL us).length ≤ j := by
              rw [← hst2]; exact hj
            rw [hhigh3 j hj, hset_other _ _ _ _ (by omega : j ≠ ctr), hhigh2 j (by omega)]
          · rw [hctr4]
            simp [hru', List.append_assoc]
          · simp only [shapeL, hshu', hsh3]
          · simp only [idsL, hidu', hid3]
            have harith2 : ctr + 1 + (m + u.ids.length) = ctr + 1 + m + u.ids.length := by
              omega
            rw [harith2, List.range'_append_1, List.length_append]
            congr 1
            omega
          · intro v hv
            rcases List.mem_cons.1 hv with rfl | hv
            · exact hu'pres
            · exact hmem3 v hv
    cases hfold : optFold (IndexJs.dcStep fuel ctr)
        (some (hset h ctr ⟨some gp, [], 0⟩, ctr + 1)) (ts.map ITree.rootId) with
    | none => rw [hrc, hfold] at hres; cases hres
    | some st =>
      rw [hrc, hfold] at hres
      simp only [Option.map_some'] at hres
      cases hres
      have hstart : ctr + 1 = ctr + 1 + 0 := by omega
      rw [hstart] at hfold
      obtain ⟨ts', hst, hlow, hhigh, hctrrec, hsh, hid, hmem⟩ :=
        fold_spec ts (hset h ctr ⟨some gp, [], 0⟩) 0 [] st hfold (hset_same _ _ _)
          (fun u hu => (hts u hu).mono
            (fun j hj => hset_other _ _ _ _ (Nat.ne_of_lt (hbts u hu j hj))))
          hbts
      refine ⟨ITree.node ctr ts', rfl, ?_, ?_, ?_, ?_, rfl, ?_, ?_⟩
      · show st.2 = ctr + (ITree.node i ts).ids.length
        rw [hst, ids_node]
        simp only [List.length_cons]
        omega
      · intro j hj
        show st.1 j = h j
        rw [hlow j (by omega) (Nat.ne_of_lt hj), hset_other _ _ _ _ (Nat.ne_of_lt hj)]
      · intro j hj
        show st.1 j = h j
        have hj2 : st.2 ≤ j := by
          rw [hst]
          rw [ids_node] at hj
          simp only [List.length_cons] at hj
          omega
        rw [hhigh j hj2, hset_other _ _ _ _ (by
          rw [ids_node] at hj
          simp only [List.length_cons] at hj
          omega : j ≠ ctr)]
      · refine TreeAt.mk hctrrec rfl (by simp) hmem
      · show ITree.shape (ITree.node ctr ts') = ITree.shape (ITree.node i ts)
        simp only [ITree.shape, hsh]
      · show (ITree.node ctr ts').ids = List.range' ctr (ITree.node i ts).ids.length
        rw [ids_node, ids_node, hid]
        simp only [List.length_cons]
        rw [List.range'_succ]

/-- Full specification of the regrowth loop: `n` independent deep copies of
`P`'s subtree are produced, each freshly allocated, with the same shape, with
correctly wired internal parents and root parent `G`, pairwise disjoint and
disjoint from everything pre-existing; their roots are appended in order to
`G.children`; `P`'s subtree itself survives untouched, as does every other
pre-existing reference. -/
theorem growLoop_spec :
    ∀ (n fuel P G : Nat) (h : Heap) (ctr : Nat) (gr : NodeRec) (tP : ITree)
      (out : Heap × Nat),
      IndexJs.growLoop fuel P G n h ctr = some out →
      TreeAt h (some G) tP → tP.rootId = P → (∀ j ∈ tP.ids, j < ctr) →
      G ∉ tP.ids → G < ctr → h G = some gr →
      ∃ copies : List ITree,
        copies.length = n ∧
        out.1 G = some ⟨gr.parent, gr.children ++ copies.map ITree.rootId, gr.depth⟩ ∧
        ctr ≤ out.2 ∧
        (∀ j, j < ctr → j ≠ G → out.1 j = h j) ∧
        TreeAt out.1 (some G) tP ∧
        (∀ t' ∈ copies, TreeAt out.1 (some G) t' ∧ t'.shape = tP.shape ∧
          t'.ids.length = tP.ids.length ∧ t'.ids.Nodup ∧
          (∀ j ∈ t'.ids, ctr ≤ j ∧ j < out.2)) ∧
        List.Pairwise (fun t1 t2 => ∀ j ∈ t1.ids, j ∉ t2.ids) copies := by
  intro n
  induction n with
  | zero =>
    intro fuel P G h ctr gr tP out hout htP hrP hbP hGn hGc hG
    cases hout
    exact ⟨[], rfl, by simpa using hG, Nat.le_refl _, fun j _ _ => rfl, htP,
      by simp, by simp⟩
  | succ n ih =>
    intro fuel P G h ctr gr tP out hout htP hrP hbP hGn hGc hG
    simp only [IndexJs.growLoop] at hout
    cases hdc : IndexJs.deepCopy fuel h ctr P G with
    | none => rw [hdc] at hout; cases hout
    | some res =>
      rw [hdc, Option.some_bind] at hout
      rw [← hrP] at hdc
      obtain ⟨t0, hnid, hc2, hlow, hhigh, ht0, hr0, hsh0, hid0⟩ :=
        deepCopy_spec fuel h ctr G (some G) tP res htP hbP hdc
      have hresG : res.1 G = some gr := by rw [hlow G hGc]; exact hG
      rw [hresG] at hout
      rw [hnid] at hout
      obtain ⟨copies', hlen, hQ, hle, hfr, htP2, hcop, hpw⟩ :=
        ih fuel P G (hset res.1 G ⟨gr.parent, gr.children ++ [ctr], gr.depth⟩) res.2.1
          ⟨gr.parent, gr.children ++ [ctr], gr.depth⟩ tP out hout
          (htP.mono (fun j hj => by
            have hjG : j ≠ G := fun he => hGn (by rwa [he] at hj)
            rw [hset_other _ _ _ _ hjG, hlow j (hbP j hj)]))
          hrP
          (fun j hj => Nat.lt_of_lt_of_le (hbP j hj) (by omega))
          hGn (by omega) (hset_same _ _ _)
      have ht0out : TreeAt out.1 (some G) t0 := by
        refine ht0.mono ?_
        intro j hj
        rw [hid0, List.mem_range'_1] at hj
        have hjG : j ≠ G := by omega
        rw [hfr j (by omega) hjG, hset_other _ _ _ _ hjG]
      refine ⟨t0 :: copies', by simp [hlen], ?_, by omega, ?_, htP2, ?_, ?_⟩
      · rw [hQ]
        simp [hr0, List.append_assoc]
      · intro j hj hjG
        rw [hfr j (by omega) hjG, hset_other _ _ _ _ hjG, hlow j hj]
      · intro t' ht'
        rcases List.mem_cons.1 ht' with rfl | ht'
        · refine ⟨ht0out, hsh0, ?_, ?_, ?_⟩
          · rw [hid0, List.length_range']
          · rw [hid0]; exact List.nodup_range' _ _
          · intro j hj
            rw [hid0, List.mem_range'_1] at hj
            omega
        · obtain ⟨ha, hb', hc', hd', he'⟩ := hcop t' ht'
          refine ⟨ha, hb', hc', hd', ?_⟩
          intro j hj
          have := he' j hj
          omega
      · refine List.Pairwise.cons ?_ hpw
        intro t' ht' j hj hj2
        rw [hid0, List.mem_range'_1] at hj
        have := (hcop t' ht').2.2.2.2 j hj2
        omega

/-- The result of the C1 scenario: first cut of the length-3 chain hydra at
the deepest leaf (parent 2, grandparent 1, one fresh copy). -/
def c1res : IndexJs.ChopState :=
  match IndexJs.chop (IndexJs.initHydra 3 false) 3 10 with
  | .ok x => x
  | .error x => x

/-- Claim C1 (confirmed): a successful cut of leaf `L` whose parent `P` is
not the root removes `L` from `P`'s children (leaving `P` in place, its
parent pointer still at the grandparent `G`, and `G`'s previous children —
`P` among them — unchanged at the front of its list), and appends exactly
`N` deep copies of the post-excision subtree rooted at `P` to `G`'s
children.  Each copy has the same shape and child order as that subtree,
consists of exactly as many freshly allocated references as the subtree has
nodes (all at or above the allocation counter, hence shared neither with any
pre-existing node nor — being pairwise disjoint — with any other copy),
every parent pointer inside a copy points at a node of that same copy, and
each copy's root parent pointer is set to `G`.  The subtree hypotheses are
stated with the executable `readITree`/`parentsOk` so a witness can check
them by evaluation. -/
theorem c1_cut_regrowth (s : IndexJs.ChopState) (L P G fuel fuel2 : Nat)
    (s' : IndexJs.ChopState) (lr pr gr : NodeRec) (pl prr : List ITree)
    (hlr : s.heap L = some lr) (hleaf : lr.children = []) (hLp : lr.parent = some P)
    (hpr : s.heap P = some pr) (hPnr : P ≠ s.rootId) (hGp : pr.parent = some G)
    (hgr : s.heap G = some gr)
    (hread : readITree fuel2 s.heap P = some (ITree.node P (pl ++ ITree.node L [] :: prr)))
    (hpo : parentsOk fuel2 s.heap (some G) P = true)
    (hnd : (ITree.node P (pl ++ ITree.node L [] :: prr)).ids.Nodup)
    (hbound : ∀ j ∈ (ITree.node P (pl ++ ITree.node L [] :: prr)).ids, j < s.idCounter)
    (hGnot : G ∉ (ITree.node P (pl ++ ITree.node L [] :: prr)).ids)
    (hGb : G < s.idCounter)
    (hok : IndexJs.chop s L fuel = .ok s') :
    ∃ copies : List ITree,
      s'.heap P = some ⟨some G, pl.map ITree.rootId ++ prr.map ITree.rootId, pr.depth⟩ ∧
      s'.heap G = some ⟨gr.parent, gr.children ++ copies.map ITree.rootId, gr.depth⟩ ∧
      copies.length = (if s.reducedGrowth then 1 else s.step + 1) ∧
      TreeAt s'.heap (some G) (ITree.node P (pl ++ prr)) ∧
      (∀ t' ∈ copies, TreeAt s'.heap (some G) t' ∧
        t'.shape = (ITree.node P (pl ++ prr)).shape ∧
        t'.ids.length = (ITree.node P (pl ++ prr)).ids.length ∧
        t'.ids.Nodup ∧ (∀ j ∈ t'.ids, s.idCounter ≤ j)) ∧
      List.Pairwise (fun t1 t2 => ∀ j ∈ t1.ids, j ∉ t2.ids) copies := by
  obtain ⟨htP, _⟩ := readITree_TreeAt fuel2 s.heap (some G) P _ hread hpo
  obtain ⟨r0, hr0, hr0p, hr0c, hr0ts⟩ := htP.inv
  rw [hpr] at hr0
  cases hr0
  have hchil : pr.children = pl.map ITree.rootId ++ L :: prr.map ITree.rootId := by
    rw [hr0c, List.map_append, List.map_cons]
    rfl
  have hndc : (idsL (pl ++ ITree.node L [] :: prr)).Nodup := by
    rw [ids_node] at hnd
    exact (List.nodup_cons.1 hnd).2
  have hndm : (pl.map ITree.rootId ++ L :: prr.map ITree.rootId).Nodup := by
    have := nodup_map_rootId _ hndc
    rwa [List.map_append, List.map_cons] at this
  have hfilter : pr.children.filter (fun c => c != L)
      = pl.map ITree.rootId ++ prr.map ITree.rootId := by
    rw [hchil]
    exact filter_bne_of_nodup hndm
  have hPni : ∀ t ∈ pl ++ prr, P ∉ t.ids := by
    intro t htm hj
    have hPn : P ∉ idsL (pl ++ ITree.node L [] :: prr) := by
      rw [ids_node] at hnd
      exact (List.nodup_cons.1 hnd).1
    rcases List.mem_append.1 htm with htm | htm
    · exact hPn (by
        rw [idsL_append]
        exact List.mem_append_left _ (mem_idsL.2 ⟨t, htm, hj⟩))
    · exact hPn (by
        rw [idsL_append]
        exact List.mem_append_right _ (by
          simp only [idsL]
          exact List.mem_append_right _ (mem_idsL.2 ⟨t, htm, hj⟩)))
  have hsub : ∀ j, j ∈ (ITree.node P (pl ++ prr)).ids →
      j ∈ (ITree.node P (pl ++ ITree.node L [] :: prr)).ids := by
    intro j hj
    rw [ids_node] at hj ⊢
    rcases List.mem_cons.1 hj with rfl | hj
    · exact List.mem_cons_self _ _
    · refine List.mem_cons_of_mem _ ?_
      rw [idsL_append] at hj ⊢
      rcases List.mem_append.1 hj with hj | hj
      · exact List.mem_append_left _ hj
      · refine List.mem_append_right _ ?_
        simp only [idsL]
        exact List.mem_append_right _ hj
  simp only [IndexJs.chop, hlr, hLp, hpr] at hok
  rw [if_neg hPnr] at hok
  simp only [hGp] at hok
  cases hgl : IndexJs.growLoop fuel P G (if s.reducedGrowth then 1 else s.step + 1)
      (hset s.heap P ⟨some G, pr.children.filter (fun c => c != L), pr.depth⟩)
      s.idCounter with
  | none => rw [hgl] at hok; cases hok
  | some st =>
    rw [hgl] at hok
    cases hok
    have hGP : G ≠ P := by
      intro he
      exact hGnot (he ▸ (ITree.node P (pl ++ ITree.node L [] :: prr)).rootId_mem)
    have htP' : TreeAt (hset s.heap P ⟨some G, pr.children.filter (fun c => c != L), pr.depth⟩)
        (some G) (ITree.node P (pl ++ prr)) := by
      refine TreeAt.mk (hset_same _ _ _) rfl ?_ ?_
      · rw [hfilter, List.map_append]
      · intro t htm
        have htm0 : t ∈ pl ++ ITree.node L [] :: prr := by
          rcases List.mem_append.1 htm with h' | h'
          · exact List.mem_append_left _ h'
          · exact List.mem_append_right _ (List.mem_cons_of_mem _ h')
        exact (hr0ts t htm0).mono (fun j hj =>
          hset_other _ _ _ _ (fun he => hPni t htm (he ▸ hj)))
    have h1G : (hset s.heap P ⟨some G, pr.children.filter (fun c => c != L), pr.depth⟩) G
        = some gr := by
      rw [hset_other _ _ _ _ hGP]
      exact hgr
    obtain ⟨copies, hlen, hQ, hle, hfr, htPout, hcop, hpw⟩ :=
      growLoop_spec (if s.reducedGrowth then 1 else s.step + 1) fuel P G _ s.idCounter gr
        (ITree.node P (pl ++ prr)) st hgl htP' rfl
        (fun j hj => hbound j (hsub j hj))
        (fun hj => hGnot (hsub G hj)) hGb h1G
    refine ⟨copies, ?_, hQ, hlen, htPout, ?_, hpw⟩
    · show st.1 P = _
      rw [hfr P (hbound P (ITree.node P (pl ++ ITree.node L [] :: prr)).rootId_mem)
          (Ne.symm hGP), hset_same, hfilter]
    · intro t' ht'
      obtain ⟨ha, hb', hc', hd', he'⟩ := hcop t' ht'
      exact ⟨ha, hb', hc', hd', fun j hj => (he' j hj).1⟩

/-- Claim C1 witness: the cut/regrowth specification applied to the length-3
chain hydra, cutting leaf 3: node 2 loses the leaf, node 1 gains one fresh
single-node copy of node 2's remaining subtree. -/
theorem c1_cut_regrowth_witness :
    IndexJs.chop (IndexJs.initHydra 3 false) 3 10 = .ok c1res ∧
    ∃ copies : List ITree,
      c1res.heap 2 = some ⟨some 1, [], 0⟩ ∧
      c1res.heap 1 = some ⟨some 0, [2] ++ copies.map ITree.rootId, 0⟩ ∧
      copies.length = 1 ∧
      TreeAt c1res.heap (some 1) (ITree.node 2 []) ∧
      (∀ t' ∈ copies, TreeAt c1res.heap (some 1) t' ∧
        t'.shape = (ITree.node 2 []).shape ∧
        t'.ids.length = (ITree.node 2 []).ids.length ∧
        t'.ids.Nodup ∧ (∀ j ∈ t'.ids, 4 ≤ j)) ∧
      List.Pairwise (fun t1 t2 => ∀ j ∈ t1.ids, j ∉ t2.ids) copies :=
  ⟨rfl, c1_cut_regrowth (IndexJs.initHydra 3 false) 3 2 1 10 3 c1res
    ⟨some 2, [], 0⟩ ⟨some 1, [3], 0⟩ ⟨some 0, [2], 0⟩ [] []
    rfl rfl rfl rfl (by decide) rfl rfl rfl (by decide) (by decide)
    (by decide) (by decide) (by decide) rfl⟩

/-- The nested multiset order on tree shapes: `TLt t' t` iff the children of
`t'` are obtained from the children of `t` by replacing one child `a` with
finitely many trees that are all smaller than `a` in this same order.  This is
the standard well-founded order under which every hydra move descends. -/
def TLt : HTree → HTree → Prop
  | t', .node cs =>
    ∃ (u : Multiset HTree) (a : HTree) (_ : a ∈ cs), (∀ b ∈ u, TLt b a) ∧
      (↑t'.children + {a} : Multiset HTree) = ↑cs + u
termination_by _ t => sizeOf t
decreasing_by
  exact Nat.lt_of_lt_of_le (List.sizeOf_lt_of_mem (by assumption)) (by simp +arith)

theorem TLt_def (t' : HTree) (cs : List HTree) :
    TLt t' (.node cs) ↔ ∃ (u : Multiset HTree) (a : HTree) (_ : a ∈ cs),
      (∀ b ∈ u, TLt b a) ∧ (↑t'.children + {a} : Multiset HTree) = ↑cs + u := by
  rw [TLt]

/-- Removing one leaf child makes a tree smaller. -/
theorem TLt_excise (pl pr : List HTree) :
    TLt (HTree.node (pl ++ pr)) (HTree.node (pl ++ HTree.node [] :: pr)) := by
  rw [TLt_def]
  refine ⟨0, HTree.node [], ?_, by simp, ?_⟩
  · exact List.mem_append_right _ (List.mem_cons_self _ _)
  · show (↑(pl ++ pr) + {HTree.node []} : Multiset HTree) = ↑(pl ++ HTree.node [] :: pr) + 0
    simp only [← Multiset.coe_add, ← Multiset.cons_coe, ← Multiset.singleton_add, add_zero]
    abel

theorem TLt_irrefl_aux : ∀ (n : Nat) (t : HTree), sizeOf t ≤ n → ¬ TLt t t := by
  intro n
  induction n with
  | zero =>
    intro t hsz
    cases t with
    | node cs => simp at hsz
  | succ n ihn =>
    intro t hsz htt
    cases t with
    | node cs =>
      rw [TLt_def] at htt
      obtain ⟨u, a, ha, hu, heq⟩ := htt
      have hchil : (HTree.node cs).children = cs := rfl
      rw [hchil] at heq
      have hua : u = {a} := (add_left_cancel heq.symm)
      have haa : TLt a a := hu a (by rw [hua]; exact Multiset.mem_singleton_self a)
      have hlt : sizeOf a < sizeOf (HTree.node cs) :=
        Nat.lt_of_lt_of_le (List.sizeOf_lt_of_mem ha) (by simp +arith)
      exact ihn a (by omega) haa

theorem TLt_irrefl (t : HTree) : ¬ TLt t t := TLt_irrefl_aux (sizeOf t) t (Nat.le_refl _)

instance : IsIrrefl HTree TLt := ⟨TLt_irrefl⟩

theorem TLt_sub {t' t : HTree} (h : TLt t' t) :
    Relation.CutExpand TLt (↑t'.children) (↑t.children) := by
  obtain ⟨cs⟩ := t
  rw [TLt_def] at h
  obtain ⟨u, a, _, hu, heq⟩ := h
  exact ⟨u, a, hu, by simpa using heq⟩

theorem acc_TLt : ∀ (n : Nat) (t : HTree), sizeOf t ≤ n → Acc TLt t := by
  intro n
  induction n with
  | zero =>
    intro t hsz
    cases t with
    | node cs => simp at hsz
  | succ n ihn =>
    intro t hsz
    cases t with
    | node cs =>
      have hacc : Acc (Relation.CutExpand TLt) (↑cs : Multiset HTree) := by
        refine Relation.acc_of_singleton ?_
        intro a ha
        have hmem : a ∈ cs := by exact_mod_cast ha
        have hlt : sizeOf a < sizeOf (HTree.node cs) :=
          Nat.lt_of_lt_of_le (List.sizeOf_lt_of_mem hmem) (by simp +arith)
        exact (ihn a (by omega)).cutExpand
      have hinv : Acc (InvImage (Relation.CutExpand TLt)
          (fun t : HTree => (↑t.children : Multiset HTree))) (HTree.node cs) :=
        InvImage.accessible _ hacc
      exact Subrelation.accessible (fun {x y} hxy => TLt_sub hxy) hinv

theorem TLt_wf : WellFounded TLt := ⟨fun t => acc_TLt (sizeOf t) t (Nat.le_refl _)⟩

/-- One hydra move on pure shapes, as `chop` performs it: either a leaf
directly below this node is removed (the root case: no regrowth), or — at any
depth below — a leaf is removed from a node `P` and `N` copies of `P`'s
remaining subtree are appended to the children of `P`'s parent. -/
inductive KPStep : HTree → HTree → Prop
  | cut (l r : List HTree) : KPStep (.node (l ++ r)) (.node (l ++ .node [] :: r))
  | grow (gl pl pr gr : List HTree) (N : Nat) :
      KPStep (.node (gl ++ .node (pl ++ pr) :: (gr ++ List.replicate N (.node (pl ++ pr)))))
             (.node (gl ++ .node (pl ++ .node [] :: pr) :: gr))
  | down (l r : List HTree) (c' c : HTree) :
      KPStep c' c → KPStep (.node (l ++ c' :: r)) (.node (l ++ c :: r))

theorem KPStep_TLt {t' t : HTree} (h : KPStep t' t) : TLt t' t := by
  induction h with
  | cut l r => exact TLt_excise l r
  | grow gl pl pr gr N =>
    rw [TLt_def]
    refine ⟨Multiset.replicate (N + 1) (HTree.node (pl ++ pr)),
      HTree.node (pl ++ HTree.node [] :: pr),
      List.mem_append_right _ (List.mem_cons_self _ _), ?_, ?_⟩
    · intro b hb
      rw [Multiset.eq_of_mem_replicate hb]
      exact TLt_excise pl pr
    · show (↑(gl ++ HTree.node (pl ++ pr) :: (gr ++ List.replicate N (HTree.node (pl ++ pr))))
          + {HTree.node (pl ++ HTree.node [] :: pr)} : Multiset HTree)
        = ↑(gl ++ HTree.node (pl ++ HTree.node [] :: pr) :: gr)
          + Multiset.replicate (N + 1) (HTree.node (pl ++ pr))
      simp only [← Multiset.coe_add, ← Multiset.cons_coe, Multiset.coe_replicate,
        Multiset.replicate_succ, ← Multiset.singleton_add]
      abel
  | down l r c' c hs ih =>
    rw [TLt_def]
    refine ⟨{c'}, c, List.mem_append_right _ (List.mem_cons_self _ _), ?_, ?_⟩
    · intro b hb
      rw [Multiset.mem_singleton.1 hb]
      exact ih
    · show (↑(l ++ c' :: r) + {c} : Multiset HTree) = ↑(l ++ c :: r) + {c'}
      simp only [← Multiset.coe_add, ← Multiset.cons_coe, ← Multiset.singleton_add]
      abel

theorem KPStep_wf : WellFounded KPStep :=
  Subrelation.wf (fun {x y} h => KPStep_TLt h) TLt_wf

/-- The root's children list, as read off a state's heap. -/
def rootChildren (s : IndexJs.ChopState) : Option (List Nat) :=
  (s.heap s.rootId).map NodeRec.children

/-- A context frame: a node reference together with the decorated sibling
subtrees to the left and to the right of the hole. -/
abbrev Frame : Type := Nat × List ITree × List ITree

/-- Plug a decorated tree into a stack of context frames, innermost first. -/
def plug : List Frame → ITree → ITree
  | [], t => t
  | f :: ctx, t => plug ctx (ITree.node f.1 (f.2.1 ++ t :: f.2.2))

/-- The reference the plugged tree's root parent field must carry, when the
whole plugged tree hangs under `p`. -/
def ctxParent (p : Option Nat) : List Frame → Option Nat
  | [] => p
  | f :: _ => some f.1

/-- All references stored in the frames of a context. -/
def ctxIds : List Frame → List Nat
  | [] => []
  | f :: ctx => f.1 :: (idsL f.2.1 ++ idsL f.2.2) ++ ctxIds ctx

/-- Plugging on pure shapes. -/
def plugH : List (List HTree × List HTree) → HTree → HTree
  | [], t => t
  | f :: ctx, t => plugH ctx (.node (f.1 ++ t :: f.2))

/-- Forget the references of a frame. -/
def shapeFrame : Frame → List HTree × List HTree :=
  fun f => (shapeL f.2.1, shapeL f.2.2)

theorem plug_cons (f : Frame) (ctx : List Frame) (t : ITree) :
    plug (f :: ctx) t = plug ctx (ITree.node f.1 (f.2.1 ++ t :: f.2.2)) := rfl

theorem plug_append : ∀ (c1 c2 : List Frame) (t : ITree),
    plug (c1 ++ c2) t = plug c2 (plug c1 t) := by
  intro c1
  induction c1 with
  | nil => intro c2 t; rfl
  | cons f c1 ih => intro c2 t; simp only [List.cons_append, plug_cons, ih]

/-- The references of a plugged tree, as a multiset: those of the hole's
content plus those of the frames. -/
theorem plug_ids : ∀ (ctx : List Frame) (u : ITree),
    (↑(plug ctx u).ids : Multiset Nat) = ↑u.ids + ↑(ctxIds ctx) := by
  intro ctx
  induction ctx with
  | nil => intro u; simp [plug, ctxIds]
  | cons f ctx ih =>
    intro u
    rw [plug_cons, ih]
    simp only [ids_node, idsL_append, idsL, ctxIds, List.append_assoc, Multiset.coe_nil,
      ← Multiset.coe_add, ← Multiset.cons_coe, ← Multiset.singleton_add]
    abel

theorem mem_plug_ids {j : Nat} {u : ITree} (ctx : List Frame) :
    j ∈ (plug ctx u).ids ↔ j ∈ u.ids ∨ j ∈ ctxIds ctx := by
  have h := plug_ids ctx u
  constructor
  · intro hj
    have hj' : j ∈ (↑(plug ctx u).ids : Multiset Nat) := by exact_mod_cast hj
    rw [h] at hj'
    rcases Multiset.mem_add.1 hj' with h' | h'
    · exact Or.inl (by exact_mod_cast h')
    · exact Or.inr (by exact_mod_cast h')
  · intro hj
    have hj' : j ∈ (↑u.ids + ↑(ctxIds ctx) : Multiset Nat) := by
      rcases hj with h' | h'
      · exact Multiset.mem_add.2 (Or.inl (by exact_mod_cast h'))
      · exact Multiset.mem_add.2 (Or.inr (by exact_mod_cast h'))
    rw [← h] at hj'
    exact_mod_cast hj'

/-- Duplicate-freeness of a plugged tree's references splits into the content
part, the frame part and their disjointness. -/
theorem plug_nodup {ctx : List Frame} {u : ITree} (h : (plug ctx u).ids.Nodup) :
    u.ids.Nodup ∧ (ctxIds ctx).Nodup ∧ ∀ j ∈ u.ids, j ∉ ctxIds ctx := by
  have hm : (↑u.ids + ↑(ctxIds ctx) : Multiset Nat).Nodup := by
    rw [← plug_ids]
    exact_mod_cast h
  rw [Multiset.nodup_add] at hm
  obtain ⟨h1, h2, h3⟩ := hm
  refine ⟨by exact_mod_cast h1, by exact_mod_cast h2, ?_⟩
  intro j hj hj2
  exact Multiset.disjoint_left.1 h3 (by exact_mod_cast hj) (by exact_mod_cast hj2)

theorem plug_rootId_congr : ∀ (ctx : List Frame) (u u' : ITree),
    u'.rootId = u.rootId → (plug ctx u').rootId = (plug ctx u).rootId := by
  intro ctx
  induction ctx with
  | nil => intro u u' h; exact h
  | cons f ctx ih => intro u u' _; exact ih _ _ rfl

theorem plug_rootId_mem : ∀ (ctx : List Frame) (u : ITree), ctx ≠ [] →
    (plug ctx u).rootId ∈ ctxIds ctx := by
  intro ctx
  induction ctx with
  | nil => intro u h; exact absurd rfl h
  | cons f ctx ih =>
    intro u _
    cases hc : ctx with
    | nil =>
      subst hc
      simp [plug, ctxIds, ITree.rootId]
    | cons g ctx2 =>
      subst hc
      have h := ih (ITree.node f.1 (f.2.1 ++ u :: f.2.2)) (by simp)
      rw [plug_cons]
      simp only [ctxIds]
      exact List.mem_cons_of_mem _ (List.mem_append_right _ h)

theorem plug_shape : ∀ (ctx : List Frame) (u : ITree),
    (plug ctx u).shape = plugH (ctx.map shapeFrame) u.shape := by
  intro ctx
  induction ctx with
  | nil => intro u; rfl
  | cons f ctx ih =>
    intro u
    rw [plug_cons, ih]
    simp only [List.map_cons, plugH]
    congr 1
    show (ITree.node f.1 (f.2.1 ++ u :: f.2.2)).shape = _
    simp [ITree.shape, shapeL_append, shapeL, shapeFrame]

theorem KPStep_plugH : ∀ (cs : List (List HTree × List HTree)) (u' u : HTree),
    KPStep u' u → KPStep (plugH cs u') (plugH cs u) := by
  intro cs
  induction cs with
  | nil => intro u' u h; exact h
  | cons f cs ih => intro u' u h; exact ih _ _ (KPStep.down f.1 f.2 u' u h)

theorem exists_plug_of_mem_aux : ∀ (n : Nat) (T : ITree), sizeOf T ≤ n →
    ∀ j ∈ T.ids, ∃ ctx ts, plug ctx (ITree.node j ts) = T := by
  intro n
  induction n with
  | zero =>
    intro T hsz
    cases T with
    | node i us => simp at hsz
  | succ n ihn =>
    intro T hsz j hj
    cases T with
    | node i us =>
      rw [ids_node] at hj
      rcases List.mem_cons.1 hj with rfl | hj2
      · exact ⟨[], us, rfl⟩
      · obtain ⟨t, htm, hjt⟩ := mem_idsL.1 hj2
        obtain ⟨l, r, rfl⟩ := List.append_of_mem htm
        have hlt : sizeOf t < sizeOf (ITree.node i (l ++ t :: r)) :=
          Nat.lt_of_lt_of_le (List.sizeOf_lt_of_mem htm) (by simp +arith)
        obtain ⟨ctx, ts, hct⟩ := ihn t (by omega) j hjt
        exact ⟨ctx ++ [(i, l, r)], ts, by rw [plug_append, hct]; rfl⟩

/-- Every reference of a tree is the root of a plugged subtree. -/
theorem exists_plug_of_mem {T : ITree} {j : Nat} (hj : j ∈ T.ids) :
    ∃ ctx ts, plug ctx (ITree.node j ts) = T :=
  exists_plug_of_mem_aux (sizeOf T) T (Nat.le_refl _) j hj

/-- Elimination: a plugged tree hanging in a heap hangs its hole content at
the innermost frame. -/
theorem TreeAt_plug : ∀ (ctx : List Frame) {h : Heap} {p : Option Nat} {u : ITree},
    TreeAt h p (plug ctx u) → TreeAt h (ctxParent p ctx) u := by
  intro ctx
  induction ctx with
  | nil => intro h p u ht; exact ht
  | cons f ctx ih =>
    intro h p u ht
    rw [plug_cons] at ht
    obtain ⟨r, hr, hp, hc, hts⟩ := (ih ht).inv
    exact hts u (by simp)

/-- Rebuild: replace the hole content of a plugged tree after a heap update
that leaves the parent/children projections of all frame and sibling records
unchanged.  The new content must hang at the innermost frame and keep the old
root reference. -/
theorem TreeAt_plug_update : ∀ (ctx : List Frame) {h h' : Heap} {p : Option Nat} {u u' : ITree},
    TreeAt h p (plug ctx u) → (plug ctx u).ids.Nodup →
    (∀ j ∈ (plug ctx u).ids, j ∉ u.ids → (h' j).map pc = (h j).map pc) →
    TreeAt h' (ctxParent p ctx) u' → u'.rootId = u.rootId →
    TreeAt h' p (plug ctx u') := by
  intro ctx
  induction ctx with
  | nil =>
    intro h h' p u u' _ _ _ ht' _
    exact ht'
  | cons f ctx ih =>
    intro h h' p u u' ht hnd hag ht' hru
    rw [plug_cons] at ht hnd hag ⊢
    have hwnd : (ITree.node f.1 (f.2.1 ++ u :: f.2.2)).ids.Nodup := (plug_nodup hnd).1
    have hwsub : ∀ j ∈ (ITree.node f.1 (f.2.1 ++ u :: f.2.2)).ids,
        j ∈ (plug ctx (ITree.node f.1 (f.2.1 ++ u :: f.2.2))).ids :=
      fun j hj => (mem_plug_ids ctx).2 (Or.inl hj)
    rw [ids_node] at hwnd
    have hf1 : f.1 ∉ idsL (f.2.1 ++ u :: f.2.2) := (List.nodup_cons.1 hwnd).1
    have hndL : (idsL (f.2.1 ++ u :: f.2.2)).Nodup := (List.nodup_cons.1 hwnd).2
    have husub : ∀ j ∈ u.ids, j ∈ (ITree.node f.1 (f.2.1 ++ u :: f.2.2)).ids := by
      intro j hj
      rw [ids_node]
      refine List.mem_cons_of_mem _ ?_
      rw [idsL_append]
      refine List.mem_append_right _ ?_
      simp only [idsL]
      exact List.mem_append_left _ hj
    have hagw : ∀ j ∈ (ITree.node f.1 (f.2.1 ++ u :: f.2.2)).ids, j ∉ u.ids →
        (h' j).map pc = (h j).map pc := fun j hj hju => hag j (hwsub j hj) hju
    obtain ⟨r, hr, hrp, hrc, hrts⟩ := (TreeAt_plug ctx ht).inv
    have hf1u : f.1 ∉ u.ids := fun hmem => hf1 (husub f.1 hmem |> fun h0 => by
      rw [ids_node] at h0
      rcases List.mem_cons.1 h0 with h1 | h1
      · exact absurd h1.symm (by
          intro h2
          exact hf1 (h2 ▸ (by
            rw [idsL_append]
            exact List.mem_append_right _ (by
              simp only [idsL]
              exact List.mem_append_left _ hmem))))
      · exact h1)
    have hrec : (h' f.1).map pc = some (pc r) := by
      rw [hagw f.1 (by rw [ids_node]; exact List.mem_cons_self _ _) hf1u, hr]
      rfl
    cases hr' : h' f.1 with
    | none => rw [hr'] at hrec; cases hrec
    | some r2 =>
      rw [hr'] at hrec
      simp only [Option.map_some', Option.some.injEq] at hrec
      rw [idsL_append, List.nodup_append] at hndL
      obtain ⟨hndl, hndc2, hdisl⟩ := hndL
      have hndc3 := hndc2
      simp only [idsL] at hndc3
      rw [List.nodup_append] at hndc3
      obtain ⟨hndu, hndr, hdisu⟩ := hndc3
      have htw' : TreeAt h' (ctxParent p ctx) (ITree.node f.1 (f.2.1 ++ u' :: f.2.2)) := by
        refine TreeAt.mk hr' ?_ ?_ ?_
        · have h1 := congrArg Prod.fst hrec
          simpa [pc, hrp] using h1
        · have h2 := congrArg Prod.snd hrec
          simp only [pc] at h2
          rw [h2, hrc, List.map_append, List.map_append, List.map_cons, List.map_cons, hru]
        · intro t htm
          rcases List.mem_append.1 htm with htm' | htm'
          · refine (hrts t (List.mem_append_left _ htm')).mono_pc ?_
            intro j hj
            refine hagw j ?_ ?_
            · rw [ids_node]
              refine List.mem_cons_of_mem _ ?_
              rw [idsL_append]
              exact List.mem_append_left _ (mem_idsL.2 ⟨t, htm', hj⟩)
            · intro hju
              exact hdisl (mem_idsL.2 ⟨t, htm', hj⟩) (by
                simp only [idsL]
                exact List.mem_append_left _ hju)
          · rcases List.mem_cons.1 htm' with rfl | htm2
            · exact ht'
            · refine (hrts t (List.mem_append_right _ (List.mem_cons_of_mem _ htm2))).mono_pc ?_
              intro j hj
              refine hagw j ?_ ?_
              · rw [ids_node]
                refine List.mem_cons_of_mem _ ?_
                rw [idsL_append]
                refine List.mem_append_right _ ?_
                simp only [idsL]
                exact List.mem_append_right _ (mem_idsL.2 ⟨t, htm2, hj⟩)
              · intro hju
                exact hdisu hju (mem_idsL.2 ⟨t, htm2, hj⟩)
      exact ih ht hnd (fun j hjm hjw => hag j hjm (fun hju => hjw (husub j hju))) htw' rfl

/-- Disjoint trees with duplicate-free references flatten to a duplicate-free
reference list. -/
theorem idsL_nodup_of_parts : ∀ (cs : List ITree),
    (∀ t ∈ cs, t.ids.Nodup) →
    List.Pairwise (fun t1 t2 => ∀ j ∈ t1.ids, j ∉ t2.ids) cs →
    (idsL cs).Nodup := by
  intro cs
  induction cs with
  | nil => intro _ _; simp [idsL]
  | cons t cs ih =>
    intro hnd hpw
    rw [List.pairwise_cons] at hpw
    simp only [idsL]
    rw [List.nodup_append]
    refine ⟨hnd t (by simp), ih (fun t' ht' => hnd t' (by simp [ht'])) hpw.2, ?_⟩
    intro j hj hj2
    obtain ⟨t2, ht2, hjt2⟩ := mem_idsL.1 hj2
    exact hpw.1 t2 ht2 j hj hjt2

theorem shapeL_replicate : ∀ (cs : List ITree) (x : HTree),
    (∀ t ∈ cs, t.shape = x) → shapeL cs = List.replicate cs.length x := by
  intro cs
  induction cs with
  | nil => intro x _; rfl
  | cons t cs ih =>
    intro x hx
    simp only [shapeL, List.length_cons, List.replicate_succ]
    rw [hx t (by simp), ih x (fun t' ht' => hx t' (by simp [ht']))]

/-- The heap determines the decorated tree: any successful `readITree` at the
root of a hanging tree returns exactly that tree. -/
theorem readITree_TreeAt_unique : ∀ (fuel : Nat) (h : Heap) (i : Nat) (t2 : ITree),
    readITree fuel h i = some t2 →
    ∀ (p : Option Nat) (t : ITree), TreeAt h p t → t.rootId = i → t2 = t := by
  intro fuel
  induction fuel with
  | zero => intro h i t2 hr; cases hr
  | succ fuel ih =>
    intro h i t2 hr p t ht hroot
    cases t with
    | node i0 ts =>
      have hi0 : i0 = i := hroot
      subst hi0
      obtain ⟨r, hrrec, hrp, hrc, hts⟩ := ht.inv
      rw [readITree, hrrec, Option.some_bind] at hr
      cases hol : optList (readITree fuel h) r.children with
      | none => rw [hol] at hr; cases hr
      | some us =>
        rw [hol] at hr
        simp only [Option.map_some', Option.some.injEq] at hr
        subst hr
        have hlist : ∀ (ts' us' : List ITree),
            optList (readITree fuel h) (ts'.map ITree.rootId) = some us' →
            (∀ t' ∈ ts', TreeAt h (some i0) t') → us' = ts' := by
          intro ts'
          induction ts' with
          | nil => intro us' hus _; cases hus; rfl
          | cons t' ts'' ihc =>
            intro us' hus hall
            rw [List.map_cons] at hus
            obtain ⟨u, us2, hu, hus2, rfl⟩ := optList_some_cons hus
            have h1 := ih h t'.rootId u hu (some i0) t' (hall t' (by simp)) rfl
            have h2 := ihc us2 hus2 (fun x hx => hall x (by simp [hx]))
            rw [h1, h2]
        have hus := hlist ts us (by rw [← hrc]; exact hol) hts
        rw [hus]

/-- One successful `chop` of a valid leaf takes a well-formed state to a
well-formed state whose root tree shape is one `KPStep` below the old one. -/
theorem chop_step (s : IndexJs.ChopState) (L fuel : Nat) (s' : IndexJs.ChopState) (T : ITree)
    (hT : TreeAt s.heap none T) (hroot : T.rootId = s.rootId)
    (hnd : T.ids.Nodup) (hbound : ∀ j ∈ T.ids, j < s.idCounter)
    (hmem : L ∈ T.ids) (hleaf : IndexJs.isLeaf s L = true)
    (hok : IndexJs.chop s L fuel = .ok s') :
    ∃ T' : ITree, TreeAt s'.heap none T' ∧ T'.rootId = s'.rootId ∧ T'.ids.Nodup ∧
      (∀ j ∈ T'.ids, j < s'.idCounter) ∧ KPStep T'.shape T.shape := by
  have hleaf' : ∃ lr : NodeRec, s.heap L = some lr ∧ lr.children = [] ∧ L ≠ s.rootId := by
    unfold IndexJs.isLeaf at hleaf
    cases hlr : s.heap L with
    | none => rw [hlr] at hleaf; cases hleaf
    | some lr =>
      rw [hlr] at hleaf
      simp only [Bool.and_eq_true, List.isEmpty_iff, bne_iff_ne, ne_eq] at hleaf
      exact ⟨lr, rfl, hleaf.1, hleaf.2⟩
  obtain ⟨lr, hlr, hlc, hLroot⟩ := hleaf'
  obtain ⟨ctx, ts, hplug⟩ := exists_plug_of_mem hmem
  have htL : TreeAt s.heap (ctxParent none ctx) (ITree.node L ts) :=
    TreeAt_plug ctx (by rw [hplug]; exact hT)
  obtain ⟨lr2, hlr2, hlp2, hlc2, -⟩ := htL.inv
  rw [hlr] at hlr2
  cases hlr2
  have hts0 : ts = [] := List.map_eq_nil.1 (hlc2.symm.trans hlc)
  subst hts0
  cases ctx with
  | nil =>
    exfalso
    apply hLroot
    rw [← hroot, ← hplug]
    rfl
  | cons f1 ctx1 =>
    obtain ⟨P₀, pl, prr⟩ := f1
    have hLp : lr.parent = some P₀ := hlp2
    have hplug1 : plug ctx1 (ITree.node P₀ (pl ++ ITree.node L [] :: prr)) = T := hplug
    have htP : TreeAt s.heap (ctxParent none ctx1)
        (ITree.node P₀ (pl ++ ITree.node L [] :: prr)) :=
      TreeAt_plug ctx1 (by rw [hplug1]; exact hT)
    obtain ⟨pr₀, hpr, hpp, hpc', hpts⟩ := htP.inv
    have hndP : (ITree.node P₀ (pl ++ ITree.node L [] :: prr)).ids.Nodup :=
      (plug_nodup (by rw [hplug1]; exact hnd)).1
    have hchil : pr₀.children = pl.map ITree.rootId ++ L :: prr.map ITree.rootId := by
      rw [hpc', List.map_append, List.map_cons]
      rfl
    have hndc : (idsL (pl ++ ITree.node L [] :: prr)).Nodup := by
      rw [ids_node] at hndP
      exact (List.nodup_cons.1 hndP).2
    have hP₀n : P₀ ∉ idsL (pl ++ ITree.node L [] :: prr) := by
      rw [ids_node] at hndP
      exact (List.nodup_cons.1 hndP).1
    have hndm : (pl.map ITree.rootId ++ L :: prr.map ITree.rootId).Nodup := by
      have h0 := nodup_map_rootId _ hndc
      rwa [List.map_append, List.map_cons] at h0
    have hfilter : pr₀.children.filter (fun c => c != L)
        = pl.map ITree.rootId ++ prr.map ITree.rootId := by
      rw [hchil]
      exact filter_bne_of_nodup hndm
    have hsubP : ∀ j ∈ (ITree.node P₀ (pl ++ ITree.node L [] :: prr)).ids, j ∈ T.ids := by
      intro j hj
      rw [← hplug1]
      exact (mem_plug_ids ctx1).2 (Or.inl hj)
    have hsub' : ∀ j ∈ (ITree.node P₀ (pl ++ prr)).ids,
        j ∈ (ITree.node P₀ (pl ++ ITree.node L [] :: prr)).ids := by
      intro j hj
      rw [ids_node] at hj ⊢
      rcases List.mem_cons.1 hj with rfl | hj
      · exact List.mem_cons_self _ _
      · refine List.mem_cons_of_mem _ ?_
        rw [idsL_append] at hj ⊢
        rcases List.mem_append.1 hj with hj | hj
        · exact List.mem_append_left _ hj
        · refine List.mem_append_right _ ?_
          simp only [idsL]
          exact List.mem_append_right _ hj
    have hPni : ∀ t ∈ pl ++ prr, P₀ ∉ t.ids := by
      intro t htm hj
      rcases List.mem_append.1 htm with htm | htm
      · exact hP₀n (by
          rw [idsL_append]
          exact List.mem_append_left _ (mem_idsL.2 ⟨t, htm, hj⟩))
      · exact hP₀n (by
          rw [idsL_append]
          exact List.mem_append_right _ (by
            simp only [idsL]
            exact List.mem_append_right _ (mem_idsL.2 ⟨t, htm, hj⟩)))
    have hkeyR : (↑(ITree.node P₀ (pl ++ prr)).ids : Multiset Nat) + {L}
        = ↑(ITree.node P₀ (pl ++ ITree.node L [] :: prr)).ids := by
      simp only [ids_node, idsL_append, idsL, List.append_assoc, List.cons_append,
        List.nil_append, Multiset.coe_nil, ← Multiset.coe_add, ← Multiset.cons_coe,
        ← Multiset.singleton_add]
      abel
    simp only [IndexJs.chop, hlr, hLp, hpr] at hok
    by_cases hProot : P₀ = s.rootId
    · rw [if_pos hProot] at hok
      cases hok
      have hctx1 : ctx1 = [] := by
        cases hc : ctx1 with
        | nil => rfl
        | cons g ctx2 =>
          exfalso
          have hmemr : T.rootId ∈ ctxIds ctx1 := by
            rw [← hplug1]
            exact plug_rootId_mem ctx1 _ (by rw [hc]; simp)
          have hdisj := (plug_nodup (by rw [hplug1]; exact hnd)).2.2
          rw [hroot, ← hProot] at hmemr
          exact hdisj P₀ (by rw [ids_node]; exact List.mem_cons_self _ _) hmemr
      subst hctx1
      have hTeq : ITree.node P₀ (pl ++ ITree.node L [] :: prr) = T := hplug1
      refine ⟨ITree.node P₀ (pl ++ prr), ?_, hProot, ?_, ?_, ?_⟩
      · refine TreeAt.mk (hset_same _ _ _) hpp ?_ ?_
        · show pr₀.children.filter (fun c => c != L) = _
          rw [hfilter, List.map_append]
        · intro t htm
          have htm0 : t ∈ pl ++ ITree.node L [] :: prr := by
            rcases List.mem_append.1 htm with h' | h'
            · exact List.mem_append_left _ h'
            · exact List.mem_append_right _ (List.mem_cons_of_mem _ h')
          exact (hpts t htm0).mono (fun j hj =>
            hset_other _ _ _ _ (fun he => hPni t htm (he ▸ hj)))
      · have hN : ((↑(ITree.node P₀ (pl ++ prr)).ids : Multiset Nat)).Nodup := by
          have hnd2 : ((↑(ITree.node P₀ (pl ++ prr)).ids : Multiset Nat) + {L}).Nodup := by
            rw [hkeyR, hTeq]
            exact_mod_cast hnd
          exact Multiset.nodup_of_le (Multiset.le_add_right _ _) hnd2
        exact_mod_cast hN
      · intro j hj
        have hj1 : j ∈ (↑(ITree.node P₀ (pl ++ prr)).ids : Multiset Nat) + {L} :=
          Multiset.mem_add.2 (Or.inl (by exact_mod_cast hj))
        rw [hkeyR, hTeq] at hj1
        show j < s.idCounter
        exact hbound j (by exact_mod_cast hj1)
      · rw [← hTeq]
        have e1 : (ITree.node P₀ (pl ++ prr)).shape
            = HTree.node (shapeL pl ++ shapeL prr) := by
          simp [ITree.shape, shapeL_append]
        have e2 : (ITree.node P₀ (pl ++ ITree.node L [] :: prr)).shape
            = HTree.node (shapeL pl ++ HTree.node [] :: shapeL prr) := by
          simp [ITree.shape, shapeL_append, shapeL]
        rw [e1, e2]
        exact KPStep.cut (shapeL pl) (shapeL prr)
    · rw [if_neg hProot] at hok
      cases hc1 : ctx1 with
      | nil =>
        exfalso
        apply hProot
        rw [← hroot, ← hplug1, hc1]
        rfl
      | cons f2 ctx2 =>
        subst hc1
        obtain ⟨G₀, gl, grr⟩ := f2
        have hGp : pr₀.parent = some G₀ := hpp
        have hplug2 : plug ctx2 (ITree.node G₀
            (gl ++ ITree.node P₀ (pl ++ ITree.node L [] :: prr) :: grr)) = T := hplug1
        have htG : TreeAt s.heap (ctxParent none ctx2) (ITree.node G₀
            (gl ++ ITree.node P₀ (pl ++ ITree.node L [] :: prr) :: grr)) :=
          TreeAt_plug ctx2 (by rw [hplug2]; exact hT)
        obtain ⟨gr₀, hgr, hgp, hgc, hgts⟩ := htG.inv
        have hndG : (ITree.node G₀
            (gl ++ ITree.node P₀ (pl ++ ITree.node L [] :: prr) :: grr)).ids.Nodup :=
          (plug_nodup (by rw [hplug2]; exact hnd)).1
        have hG₀n : G₀ ∉ idsL (gl ++ ITree.node P₀ (pl ++ ITree.node L [] :: prr) :: grr) := by
          rw [ids_node] at hndG
          exact (List.nodup_cons.1 hndG).1
        have hndcG : (idsL (gl ++ ITree.node P₀ (pl ++ ITree.node L [] :: prr) :: grr)).Nodup := by
          rw [ids_node] at hndG
          exact (List.nodup_cons.1 hndG).2
        have hexp : idsL (gl ++ ITree.node P₀ (pl ++ ITree.node L [] :: prr) :: grr)
            = idsL gl ++ ((ITree.node P₀ (pl ++ ITree.node L [] :: prr)).ids ++ idsL grr) := by
          rw [idsL_append]
          simp only [idsL]
        have hndcG2 := hndcG
        rw [hexp, List.nodup_append] at hndcG2
        obtain ⟨hndgl, hndtail, hdisgl⟩ := hndcG2
        rw [List.nodup_append] at hndtail
        obtain ⟨hndtP, hndgrr, hdistP⟩ := hndtail
        have hsubG : ∀ j ∈ (ITree.node G₀
            (gl ++ ITree.node P₀ (pl ++ ITree.node L [] :: prr) :: grr)).ids, j ∈ T.ids := by
          intro j hj
          rw [← hplug2]
          exact (mem_plug_ids ctx2).2 (Or.inl hj)
        simp only [hGp] at hok
        cases hgl' : IndexJs.growLoop fuel P₀ G₀ (if s.reducedGrowth then 1 else s.step + 1)
            (hset s.heap P₀ ⟨some G₀, pr₀.children.filter (fun c => c != L), pr₀.depth⟩)
            s.idCounter with
        | none => rw [hgl'] at hok; cases hok
        | some st =>
          rw [hgl'] at hok
          cases hok
          have hGP : G₀ ≠ P₀ := by
            intro he
            apply hG₀n
            rw [he]
            exact mem_idsL.2 ⟨ITree.node P₀ (pl ++ ITree.node L [] :: prr),
              List.mem_append_right _ (List.mem_cons_self _ _), ITree.rootId_mem _⟩
          have htP' : TreeAt (hset s.heap P₀
              ⟨some G₀, pr₀.children.filter (fun c => c != L), pr₀.depth⟩)
              (some G₀) (ITree.node P₀ (pl ++ prr)) := by
            refine TreeAt.mk (hset_same _ _ _) rfl ?_ ?_
            · rw [hfilter, List.map_append]
            · intro t htm
              have htm0 : t ∈ pl ++ ITree.node L [] :: prr := by
                rcases List.mem_append.1 htm with h' | h'
                · exact List.mem_append_left _ h'
                · exact List.mem_append_right _ (List.mem_cons_of_mem _ h')
              exact (hpts t htm0).mono (fun j hj =>
                hset_other _ _ _ _ (fun he => hPni t htm (he ▸ hj)))
          have h1G : (hset s.heap P₀
              ⟨some G₀, pr₀.children.filter (fun c => c != L), pr₀.depth⟩) G₀ = some gr₀ := by
            rw [hset_other _ _ _ _ hGP]
            exact hgr
          have hGnot' : G₀ ∉ (ITree.node P₀ (pl ++ prr)).ids := by
            intro hmem'
            apply hG₀n
            exact mem_idsL.2 ⟨ITree.node P₀ (pl ++ ITree.node L [] :: prr),
              List.mem_append_right _ (List.mem_cons_self _ _), hsub' G₀ hmem'⟩
          have hGb' : G₀ < s.idCounter :=
            hbound G₀ (hsubG G₀ (by rw [ids_node]; exact List.mem_cons_self _ _))
          obtain ⟨copies, hlen, hQ, hle, hfr, htPout, hcop, hpw⟩ :=
            growLoop_spec (if s.reducedGrowth then 1 else s.step + 1) fuel P₀ G₀ _
              s.idCounter gr₀ (ITree.node P₀ (pl ++ prr)) st hgl' htP' rfl
              (fun j hj => hbound j (hsubP j (hsub' j hj)))
              hGnot' hGb' h1G
          have htG' : TreeAt st.1 (ctxParent none ctx2) (ITree.node G₀
              ((gl ++ ITree.node P₀ (pl ++ prr) :: grr) ++ copies)) := by
            refine TreeAt.mk hQ hgp ?_ ?_
            · show gr₀.children ++ copies.map ITree.rootId = _
              rw [hgc]
              simp [List.map_append, List.map_cons, ITree.rootId]
            · intro t htm
              rcases List.mem_append.1 htm with htm' | htm'
              · rcases List.mem_append.1 htm' with hgl2 | hcr
                · have hjsub : ∀ j ∈ t.ids, j ∈ idsL gl := fun j hj => mem_idsL.2 ⟨t, hgl2, hj⟩
                  refine (hgts t (List.mem_append_left _ hgl2)).mono ?_
                  intro j hj
                  have hjgl := hjsub j hj
                  have hjmem : j ∈ idsL (gl ++ ITree.node P₀
                      (pl ++ ITree.node L [] :: prr) :: grr) := by
                    rw [hexp]
                    exact List.mem_append_left _ hjgl
                  have hjG : j ≠ G₀ := fun he => hG₀n (he ▸ hjmem)
                  have hjP : j ≠ P₀ := fun he => hdisgl hjgl
                    (List.mem_append_left _ (by rw [he]; exact ITree.rootId_mem _))
                  have hjb : j < s.idCounter := hbound j (hsubG j
                    (by rw [ids_node]; exact List.mem_cons_of_mem _ hjmem))
                  rw [hfr j hjb hjG, hset_other _ _ _ _ hjP]
                · rcases List.mem_cons.1 hcr with rfl | hgr2
                  · exact htPout
                  · have hjsub : ∀ j ∈ t.ids, j ∈ idsL grr := fun j hj => mem_idsL.2 ⟨t, hgr2, hj⟩
                    refine (hgts t (List.mem_append_right _ (List.mem_cons_of_mem _ hgr2))).mono ?_
                    intro j hj
                    have hjgrr := hjsub j hj
                    have hjmem : j ∈ idsL (gl ++ ITree.node P₀
                        (pl ++ ITree.node L [] :: prr) :: grr) := by
                      rw [hexp]
                      exact List.mem_append_right _ (List.mem_append_right _ hjgrr)
                    have hjG : j ≠ G₀ := fun he => hG₀n (he ▸ hjmem)
                    have hjP : j ≠ P₀ := fun he => hdistP (ITree.rootId_mem _) (he ▸ hjgrr)
                    have hjb : j < s.idCounter := hbound j (hsubG j
                      (by rw [ids_node]; exact List.mem_cons_of_mem _ hjmem))
                    rw [hfr j hjb hjG, hset_other _ _ _ _ hjP]
              · exact (hcop t htm').1
          have hkey : (↑(ITree.node G₀ ((gl ++ ITree.node P₀ (pl ++ prr) :: grr)
                ++ copies)).ids : Multiset Nat) + {L}
              = ↑(ITree.node G₀ (gl ++ ITree.node P₀
                  (pl ++ ITree.node L [] :: prr) :: grr)).ids + ↑(idsL copies) := by
            simp only [ids_node, idsL_append, idsL, List.append_assoc, List.cons_append,
              List.nil_append, Multiset.coe_nil, ← Multiset.coe_add, ← Multiset.cons_coe,
              ← Multiset.singleton_add]
            abel
          have h2T : (↑T.ids : Multiset Nat) = ↑(ITree.node G₀ (gl ++ ITree.node P₀
              (pl ++ ITree.node L [] :: prr) :: grr)).ids + ↑(ctxIds ctx2) := by
            rw [← hplug2]
            exact plug_ids ctx2 _
          have hkeyT : (↑(plug ctx2 (ITree.node G₀ ((gl ++ ITree.node P₀ (pl ++ prr) :: grr)
                ++ copies))).ids : Multiset Nat) + {L} = ↑T.ids + ↑(idsL copies) := by
            rw [plug_ids, h2T, add_right_comm, hkey]
            abel
          have hcopnd : (idsL copies).Nodup :=
            idsL_nodup_of_parts copies (fun t ht => (hcop t ht).2.2.2.1) hpw
          have hndRHS : ((↑T.ids : Multiset Nat) + ↑(idsL copies)).Nodup := by
            rw [Multiset.nodup_add]
            refine ⟨by exact_mod_cast hnd, by exact_mod_cast hcopnd, ?_⟩
            rw [Multiset.disjoint_left]
            intro a haT hacop
            have hb1 := hbound a (by exact_mod_cast haT)
            obtain ⟨t, ht, hat⟩ := mem_idsL.1 (by exact_mod_cast hacop : a ∈ idsL copies)
            have hb2 := ((hcop t ht).2.2.2.2 a hat).1
            omega
          refine ⟨plug ctx2 (ITree.node G₀ ((gl ++ ITree.node P₀ (pl ++ prr) :: grr)
            ++ copies)), ?_, ?_, ?_, ?_, ?_⟩
          · have hTold : TreeAt s.heap none (plug ctx2 (ITree.node G₀
                (gl ++ ITree.node P₀ (pl ++ ITree.node L [] :: prr) :: grr))) := by
              rw [hplug2]
              exact hT
            have hndold : (plug ctx2 (ITree.node G₀
                (gl ++ ITree.node P₀ (pl ++ ITree.node L [] :: prr) :: grr))).ids.Nodup := by
              rw [hplug2]
              exact hnd
            have hagree : ∀ j ∈ (plug ctx2 (ITree.node G₀
                (gl ++ ITree.node P₀ (pl ++ ITree.node L [] :: prr) :: grr))).ids,
                j ∉ (ITree.node G₀
                  (gl ++ ITree.node P₀ (pl ++ ITree.node L [] :: prr) :: grr)).ids →
                (st.1 j).map pc = (s.heap j).map pc := by
              intro j hjm hjn
              have hjT : j ∈ T.ids := by rw [← hplug2]; exact hjm
              have hjG : j ≠ G₀ := fun he => hjn
                (by rw [he, ids_node]; exact List.mem_cons_self _ _)
              have hjP : j ≠ P₀ := fun he => hjn (by
                rw [he, ids_node]
                refine List.mem_cons_of_mem _ ?_
                exact mem_idsL.2 ⟨ITree.node P₀ (pl ++ ITree.node L [] :: prr),
                  List.mem_append_right _ (List.mem_cons_self _ _), ITree.rootId_mem _⟩)
              rw [hfr j (hbound j hjT) hjG, hset_other _ _ _ _ hjP]
            exact TreeAt_plug_update ctx2 hTold hndold hagree htG' rfl
          · exact (plug_rootId_congr ctx2
              (ITree.node G₀ (gl ++ ITree.node P₀ (pl ++ ITree.node L [] :: prr) :: grr))
              (ITree.node G₀ ((gl ++ ITree.node P₀ (pl ++ prr) :: grr) ++ copies))
              rfl).trans ((congrArg ITree.rootId hplug2).trans hroot)
          · have hN : ((↑(plug ctx2 (ITree.node G₀ ((gl ++ ITree.node P₀ (pl ++ prr) :: grr)
                ++ copies))).ids : Multiset Nat)).Nodup := by
              have hnd2 : ((↑(plug ctx2 (ITree.node G₀ ((gl ++ ITree.node P₀
                    (pl ++ prr) :: grr) ++ copies))).ids : Multiset Nat) + {L}).Nodup := by
                rw [hkeyT]
                exact hndRHS
              exact Multiset.nodup_of_le (Multiset.le_add_right _ _) hnd2
            exact_mod_cast hN
          · intro j hj
            have hj1 : j ∈ (↑(plug ctx2 (ITree.node G₀ ((gl ++ ITree.node P₀
                (pl ++ prr) :: grr) ++ copies))).ids : Multiset Nat) + {L} :=
              Multiset.mem_add.2 (Or.inl (by exact_mod_cast hj))
            rw [hkeyT] at hj1
            show j < st.2
            rcases Multiset.mem_add.1 hj1 with hj2 | hj2
            · have := hbound j (by exact_mod_cast hj2)
              omega
            · obtain ⟨t, ht, hjt⟩ := mem_idsL.1 (by exact_mod_cast hj2 : j ∈ idsL copies)
              exact ((hcop t ht).2.2.2.2 j hjt).2
          · have hrep : shapeL copies
                = List.replicate copies.length (HTree.node (shapeL pl ++ shapeL prr)) := by
              refine shapeL_replicate copies _ ?_
              intro t ht
              rw [(hcop t ht).2.1]
              simp [ITree.shape, shapeL_append]
            have e1 : (ITree.node G₀ ((gl ++ ITree.node P₀ (pl ++ prr) :: grr)
                  ++ copies)).shape
                = HTree.node (shapeL gl ++ HTree.node (shapeL pl ++ shapeL prr)
                    :: (shapeL grr ++ List.replicate copies.length
                      (HTree.node (shapeL pl ++ shapeL prr)))) := by
              simp [ITree.shape, shapeL_append, shapeL, hrep]
            have e2 : (ITree.node G₀ (gl ++ ITree.node P₀
                  (pl ++ ITree.node L [] :: prr) :: grr)).shape
                = HTree.node (shapeL gl ++ HTree.node (shapeL pl
                    ++ HTree.node [] :: shapeL prr) :: shapeL grr) := by
              simp [ITree.shape, shapeL_append, shapeL]
            rw [← hplug2, plug_shape, plug_shape, e1, e2]
            exact KPStep_plugH _ _ _
              (KPStep.grow (shapeL gl) (shapeL pl) (shapeL prr) (shapeL grr) copies.length)

/-- The state after the single cut that slays the one-leaf chain hydra. -/
def c9s1 : IndexJs.ChopState :=
  match IndexJs.chop (IndexJs.initHydra 1 false) 1 5 with
  | .ok x => x
  | .error x => x

/-- A concrete play of the game: the one-leaf chain hydra, its only leaf cut
at the first move, then nothing more to do. -/
def c9seq : ℕ → IndexJs.ChopState
  | 0 => IndexJs.initHydra 1 false
  | _+1 => c9s1

/-- Claim C9 (confirmed): starting from any well-formed finite state under the
turn-indexed non-reduced growth policy, every play that, as long as the root
still has a child, successfully cuts some valid leaf (a leaf reference of the
tree, as the click handler selects) eventually reaches a state whose root has
no children: the game terminates after finitely many cuts.  The proof walks
the accessibility of the root shape under the hydra step relation `KPStep`,
which refines every successful `chop`. -/
theorem c9_termination (s : ℕ → IndexJs.ChopState) (L f : ℕ → ℕ) (fuel0 : Nat) (T0 : ITree)
    (hrg : (s 0).reducedGrowth = false)
    (hwf : chopWF fuel0 (s 0) T0)
    (hstep : ∀ n, rootChildren (s n) ≠ some [] →
      IndexJs.isLeaf (s n) (L n) = true ∧
      (∃ g T, readITree g (s n).heap (s n).rootId = some T ∧ L n ∈ T.ids) ∧
      IndexJs.chop (s n) (L n) (f n) = .ok (s (n+1))) :
    ∃ n, rootChildren (s n) = some [] := by
  have main : ∀ sh : HTree, Acc KPStep sh → ∀ n (T : ITree),
      TreeAt (s n).heap none T → T.rootId = (s n).rootId → T.ids.Nodup →
      (∀ j ∈ T.ids, j < (s n).idCounter) → T.shape = sh →
      ∃ m, rootChildren (s m) = some [] := by
    intro sh hacc
    induction hacc with
    | intro sh hsub ih =>
      intro n T hT hr hnd hb hsh
      by_cases hroot : rootChildren (s n) = some []
      · exact ⟨n, hroot⟩
      · obtain ⟨hleaf, ⟨g, T2, hrd, hmem⟩, hok⟩ := hstep n hroot
        have hT2 : T2 = T := readITree_TreeAt_unique g _ _ T2 hrd none T hT hr
        rw [hT2] at hmem
        obtain ⟨T', hT', hr', hnd', hb', hkp⟩ :=
          chop_step (s n) (L n) (f n) (s (n+1)) T hT hr hnd hb hmem hleaf hok
        exact ih T'.shape (hsh ▸ hkp) (n+1) T' hT' hr' hnd' hb' rfl
  obtain ⟨hT0, hr0, hnd0, hb0⟩ := chopWF_spec hwf
  exact main T0.shape (KPStep_wf.apply T0.shape) 0 T0 hT0 hr0 hnd0 hb0 rfl

/-- Claim C9 witness: the termination theorem applied to the one-leaf chain
hydra under the non-reduced policy, with all hypotheses checked by
evaluation; the first (and only) cut already empties the root's children. -/
theorem c9_termination_witness :
    (c9seq 0).reducedGrowth = false ∧
    chopWF 3 (c9seq 0) (ITree.node 0 [ITree.node 1 []]) ∧
    ∃ n, rootChildren (c9seq n) = some [] := by
  refine ⟨rfl, ⟨by decide, by decide, by decide, by decide⟩, ?_⟩
  refine c9_termination c9seq (fun _ => 1) (fun _ => 5) 3 (ITree.node 0 [ITree.node 1 []])
    rfl ⟨by decide, by decide, by decide, by decide⟩ ?_
  intro n hne
  cases n with
  | zero => exact ⟨by decide, ⟨3, ITree.node 0 [ITree.node 1 []], by decide, by decide⟩, rfl⟩
  | succ m =>
    refine absurd ?_ hne
    show rootChildren c9s1 = some []
    decide
